import Mathlib

/-!
# Verification of the `asndb` IP-range database core

A shallow embedding of the repository's core (`src/store.rs`,
`src/stringpool.rs`): the string pool, the range indexes, the ASN table,
TSV ingest, point query, and the binary snapshot writer/reader.

Machine integers are modelled as `Nat` with explicit `% 2^w` where the
source performs a narrowing cast; byte streams are `List Nat` with each
element a byte value; Rust strings are their UTF-8 byte sequences;
fallible operations return `Except`/`Option`, and a `panic` is modelled
as a dedicated error value.
-/

namespace Asndb

/-! ## Byte-level primitives -/

/-- Big-endian encoding of `n` into `k` bytes (the truncating cast the
source performs when a value is written through `byteorder`). -/
def beBytes : Nat → Nat → List Nat
  | 0, _ => []
  | k + 1, n => beBytes k (n / 256) ++ [n % 256]

/-- Little-endian encoding of `n` into `k` bytes (`u32::to_le_bytes`). -/
def leBytes : Nat → Nat → List Nat
  | 0, _ => []
  | k + 1, n => n % 256 :: leBytes k (n / 256)

/-- Big-endian read of a byte list (`byteorder::BigEndian` reads). -/
def rdBe (l : List Nat) : Nat := l.foldl (fun a b => a * 256 + b) 0

/-- Little-endian read of a byte list (`u32::from_le_bytes`). -/
def rdLe (l : List Nat) : Nat := rdBe l.reverse

theorem beBytes_length (k n : Nat) : (beBytes k n).length = k := by
  induction k generalizing n with
  | zero => rfl
  | succ k ih => simp [beBytes, ih]

theorem leBytes_length (k n : Nat) : (leBytes k n).length = k := by
  induction k generalizing n with
  | zero => rfl
  | succ k ih => simp [leBytes, ih]

theorem rdBe_append (l₁ l₂ : List Nat) :
    rdBe (l₁ ++ l₂) = l₂.foldl (fun a b => a * 256 + b) (rdBe l₁) := by
  simp [rdBe, List.foldl_append]

theorem rdBe_beBytes (k n : Nat) : rdBe (beBytes k n) = n % 256 ^ k := by
  induction k generalizing n with
  | zero => simp [beBytes, rdBe, Nat.mod_one]
  | succ k ih =>
      rw [beBytes, rdBe_append]
      simp only [List.foldl_cons, List.foldl_nil, ih]
      have h : 256 ^ (k + 1) = 256 * 256 ^ k := by ring
      rw [h, Nat.mod_mul]
      ring

theorem rdBe_beBytes_of_lt {k n : Nat} (h : n < 256 ^ k) :
    rdBe (beBytes k n) = n := by
  rw [rdBe_beBytes, Nat.mod_eq_of_lt h]

theorem leBytes_eq_reverse_beBytes (k n : Nat) :
    leBytes k n = (beBytes k n).reverse := by
  induction k generalizing n with
  | zero => rfl
  | succ k ih => simp [leBytes, beBytes, ih]

theorem rdLe_leBytes (k n : Nat) : rdLe (leBytes k n) = n % 256 ^ k := by
  rw [rdLe, leBytes_eq_reverse_beBytes, List.reverse_reverse, rdBe_beBytes]

theorem rdLe_leBytes_of_lt {k n : Nat} (h : n < 256 ^ k) :
    rdLe (leBytes k n) = n := by
  rw [rdLe_leBytes, Nat.mod_eq_of_lt h]

/-- `(a ++ b).take a.length = a`, stated for reuse. -/
theorem take_len_append {α : Type _} (a b : List α) :
    (a ++ b).take a.length = a := by
  simp

/-- `(a ++ b).drop a.length = b`, stated for reuse. -/
theorem drop_len_append {α : Type _} (a b : List α) :
    (a ++ b).drop a.length = b := by
  simp

theorem take_append_cons {α : Type _} (a : List α) (x : α) (l : List α) :
    (a ++ x :: l).take (a.length + 1) = a ++ [x] := by
  induction a with
  | nil => rfl
  | cons y ys ih => simpa using ih

theorem drop_append_cons {α : Type _} (a : List α) (x : α) (l : List α) :
    (a ++ x :: l).drop (a.length + 1) = l := by
  induction a with
  | nil => rfl
  | cons y ys ih => simp [ih]

/-! ## UTF-8 validity

Rust `String`s carry the invariant that their bytes are valid UTF-8, and
`read_to_string` enforces it on input. `validUTF8` is the standard
byte-level validator (RFC 3629 shortest-form ranges, as `str` checks). -/

/-- A UTF-8 continuation byte: `0x80..=0xBF`. -/
def contOk (b : Nat) : Bool := 0x80 ≤ b && b ≤ 0xBF

/-- Bounds the continuation bytes a UTF-8 leading byte demands (RFC 3629
shortest-form table, the table `str` validation uses). `none` marks an
invalid leading byte. -/
def utf8Starts (b : Nat) : Option (List (Nat × Nat)) :=
  if b ≤ 0x7F then some []
  else if b < 0xC2 then none
  else if b ≤ 0xDF then some [(0x80, 0xBF)]
  else if b = 0xE0 then some [(0xA0, 0xBF), (0x80, 0xBF)]
  else if b = 0xED then some [(0x80, 0x9F), (0x80, 0xBF)]
  else if b ≤ 0xEF then some [(0x80, 0xBF), (0x80, 0xBF)]
  else if b = 0xF0 then some [(0x90, 0xBF), (0x80, 0xBF), (0x80, 0xBF)]
  else if b = 0xF4 then some [(0x80, 0x8F), (0x80, 0xBF), (0x80, 0xBF)]
  else if b ≤ 0xF4 then some [(0x80, 0xBF), (0x80, 0xBF), (0x80, 0xBF)]
  else none

/-- UTF-8 validation as a byte-driven automaton: `need` bounds the
continuation bytes still owed by the current scalar. -/
def utf8Run : List (Nat × Nat) → List Nat → Bool
  | [], [] => true
  | [], b :: rest =>
    match utf8Starts b with
    | some need => utf8Run need rest
    | none => false
  | _ :: _, [] => false
  | (lo, hi) :: need, b :: rest => lo ≤ b && b ≤ hi && utf8Run need rest

/-- Byte-level UTF-8 validity of a whole byte string. -/
def validUTF8 (l : List Nat) : Bool := utf8Run [] l

theorem utf8Starts_lo {b : Nat} {need : List (Nat × Nat)}
    (h : utf8Starts b = some need) : ∀ x ∈ need, 0x80 ≤ x.1 := by
  unfold utf8Starts at h
  split_ifs at h <;> (cases h; try decide)

/-- A valid UTF-8 byte string never starts with a continuation byte. -/
theorem validUTF8_head_not_cont {b : Nat} {r : List Nat}
    (h : validUTF8 (b :: r) = true) : contOk b = false := by
  by_contra hc
  have hb : 0x80 ≤ b ∧ b ≤ 0xBF := by
    simp only [contOk, Bool.not_eq_false, Bool.and_eq_true, decide_eq_true_eq] at hc
    exact hc
  have : utf8Starts b = none := by
    unfold utf8Starts
    have h1 : ¬ b ≤ 0x7F := by omega
    have h2 : b < 0xC2 := by omega
    simp [h1, h2]
  simp [validUTF8, utf8Run, this] at h

/-- Valid UTF-8 strings are closed under concatenation (generalized over
the automaton state). -/
theorem utf8Run_append {s : List (Nat × Nat)} {xs ys : List Nat}
    (hx : utf8Run s xs = true) (hy : utf8Run [] ys = true) :
    utf8Run s (xs ++ ys) = true := by
  induction xs generalizing s with
  | nil =>
      match s, hx with
      | [], _ => simpa using hy
  | cons b r ih =>
      match s with
      | [] =>
          rw [utf8Run] at hx
          rw [List.cons_append, utf8Run]
          match hs : utf8Starts b with
          | some need =>
              rw [hs] at hx
              exact ih (show utf8Run need r = true from hx)
          | none =>
              rw [hs] at hx
              simp at hx
      | (lo, hi) :: need =>
          rw [utf8Run] at hx
          rw [List.cons_append, utf8Run]
          simp only [Bool.and_eq_true] at hx ⊢
          exact ⟨hx.1, ih hx.2⟩

theorem validUTF8_append {xs ys : List Nat} (hx : validUTF8 xs = true)
    (hy : validUTF8 ys = true) : validUTF8 (xs ++ ys) = true :=
  utf8Run_append hx hy

theorem validUTF8_join {ds : List (List Nat)}
    (h : ∀ d ∈ ds, validUTF8 d = true) : validUTF8 ds.flatten = true := by
  induction ds with
  | nil => rfl
  | cons d ds ih =>
      rw [List.flatten_cons]
      exact validUTF8_append (h d (by simp)) (ih fun x hx => h x (by simp [hx]))

/-! ## Splitting on a delimiter byte

`str::split` over a single ASCII character, at the byte level. -/

/-- Prepend a byte onto the first piece of a split result. -/
def consHead (b : Nat) : List (List Nat) → List (List Nat)
  | [] => [[b]]
  | p :: ps => (b :: p) :: ps

/-- `str::split(c)` for a one-byte ASCII pattern `d`, on UTF-8 bytes. -/
def splitByte (d : Nat) : List Nat → List (List Nat)
  | [] => [[]]
  | b :: r => if b = d then [] :: splitByte d r else consHead b (splitByte d r)

theorem splitByte_ne_nil (d : Nat) (l : List Nat) : splitByte d l ≠ [] := by
  induction l with
  | nil => simp [splitByte]
  | cons b r ih =>
      rw [splitByte]
      split
      · simp
      · match h : splitByte d r with
        | [] => exact absurd h ih
        | p :: ps => simp [consHead]

/-- Splitting a valid UTF-8 string at an ASCII delimiter yields valid
pieces; generalized over the automaton state of the head piece. -/
theorem utf8Run_splitByte {d : Nat} (hd : d ≤ 0x7F) :
    ∀ (l : List Nat) (need : List (Nat × Nat)),
      (∀ x ∈ need, 0x80 ≤ x.1) → utf8Run need l = true →
      ∃ p ps, splitByte d l = p :: ps ∧ utf8Run need p = true ∧
        ∀ q ∈ ps, utf8Run [] q = true := by
  intro l
  induction l with
  | nil =>
      intro need _ hrun
      exact ⟨[], [], rfl, hrun, by simp⟩
  | cons b r ih =>
      intro need hlo hrun
      match need with
      | [] =>
          rw [utf8Run] at hrun
          match hs : utf8Starts b with
          | some need' =>
              rw [hs] at hrun
              by_cases hb : b = d
              · -- the delimiter is ASCII, so the state after it is empty
                have hd' : utf8Starts b = some [] := by
                  unfold utf8Starts; simp [hb, Nat.le_trans (le_refl d) hd, hd]
                have : need' = [] := by rw [hd'] at hs; injection hs with h; exact h.symm
                subst this
                obtain ⟨p, ps, hsp, hp, hps⟩ := ih [] (by simp) hrun
                refine ⟨[], p :: ps, ?_, rfl, ?_⟩
                · rw [splitByte, if_pos hb, hsp]
                · intro q hq
                  rcases List.mem_cons.1 hq with h | h
                  · exact h ▸ hp
                  · exact hps q h
              · obtain ⟨p, ps, hsp, hp, hps⟩ :=
                  ih need' (utf8Starts_lo hs) hrun
                refine ⟨b :: p, ps, ?_, ?_, hps⟩
                · rw [splitByte, if_neg hb, hsp]; rfl
                · rw [utf8Run, hs]; exact hp
          | none =>
              rw [hs] at hrun
              simp at hrun
      | (lo, hi) :: need' =>
          rw [utf8Run] at hrun
          simp only [Bool.and_eq_true, decide_eq_true_eq] at hrun
          obtain ⟨⟨hblo, hbhi⟩, hrun'⟩ := hrun
          have hb : b ≠ d := by
            have : 0x80 ≤ lo := hlo (lo, hi) (by simp)
            omega
          obtain ⟨p, ps, hsp, hp, hps⟩ :=
            ih need' (fun x hx => hlo x (by simp [hx])) hrun'
          refine ⟨b :: p, ps, ?_, ?_, hps⟩
          · rw [splitByte, if_neg hb, hsp]; rfl
          · rw [utf8Run]
            simp only [Bool.and_eq_true, decide_eq_true_eq]
            exact ⟨⟨hblo, hbhi⟩, hp⟩

/-- Every piece of an ASCII-delimiter split of a valid UTF-8 string is
valid UTF-8. -/
theorem validUTF8_splitByte {d : Nat} (hd : d ≤ 0x7F) {l : List Nat}
    (h : validUTF8 l = true) : ∀ p ∈ splitByte d l, validUTF8 p = true := by
  obtain ⟨p, ps, hsp, hp, hps⟩ := utf8Run_splitByte hd l [] (by simp) h
  intro q hq
  rw [hsp] at hq
  rcases List.mem_cons.1 hq with h' | h'
  · exact h' ▸ hp
  · exact hps q h'

/-! ## Character boundaries

`str::is_char_boundary`, which is what byte-range slicing of a `String`
checks before it panics. -/

/-- `str::is_char_boundary`: index 0 and the total length are boundaries;
otherwise the byte at the index must not be a continuation byte. -/
def isCharBoundary (P : List Nat) (i : Nat) : Bool :=
  if i = 0 then true
  else
    match P.drop i with
    | [] => i == P.length
    | b :: _ => ! contOk b

/-- A position that either is the end or carries a non-continuation byte;
implies `isCharBoundary` and is stable under prefixing. -/
def strongBound (P : List Nat) (i : Nat) : Prop :=
  match P.drop i with
  | [] => i = P.length
  | b :: _ => contOk b = false

theorem isCharBoundary_of_strongBound {P : List Nat} {i : Nat}
    (h : strongBound P i) : isCharBoundary P i = true := by
  unfold isCharBoundary
  split
  · rfl
  · unfold strongBound at h
    match hP : P.drop i with
    | [] => rw [hP] at h; simp [h]
    | b :: t => rw [hP] at h; simp [h]

/-- Sum of the lengths of a list of byte strings. -/
def sumLen (ds : List (List Nat)) : Nat := (ds.map List.length).sum

theorem sumLen_nil : sumLen [] = 0 := rfl

theorem sumLen_cons (d : List Nat) (ds : List (List Nat)) :
    sumLen (d :: ds) = d.length + sumLen ds := by
  simp [sumLen]

/-- Dropping a prefix-sum of lengths from a flattened list drops whole
pieces. -/
theorem drop_sumLen_flatten (ds : List (List Nat)) (k : Nat) :
    ds.flatten.drop (sumLen (ds.take k)) = (ds.drop k).flatten := by
  induction ds generalizing k with
  | nil => simp [sumLen]
  | cons d ds ih =>
      match k with
      | 0 => simp [sumLen]
      | k + 1 =>
          rw [List.take_succ_cons, sumLen_cons, List.flatten_cons]
          simp only [List.drop_succ_cons]
          rw [List.drop_append, ih]

theorem length_flatten_eq_sumLen (ds : List (List Nat)) :
    ds.flatten.length = sumLen ds := by
  induction ds with
  | nil => rfl
  | cons d ds ih => simp [sumLen_cons, ih]

theorem sumLen_take_le (ds : List (List Nat)) (k : Nat) :
    sumLen (ds.take k) ≤ sumLen ds := by
  induction ds generalizing k with
  | nil => simp [sumLen]
  | cons d ds ih =>
      match k with
      | 0 => simp [sumLen]
      | k + 1 =>
          rw [List.take_succ_cons, sumLen_cons, sumLen_cons]
          exact Nat.add_le_add_left (ih k) _

/-- The start of the `k`-th piece of a flattening of valid UTF-8 pieces
is a (strong) character boundary. -/
theorem strongBound_flatten_take {ds : List (List Nat)}
    (h : ∀ d ∈ ds, validUTF8 d = true) (k : Nat) :
    strongBound ds.flatten (sumLen (ds.take k)) := by
  unfold strongBound
  rw [drop_sumLen_flatten]
  match hrest : (ds.drop k).flatten with
  | [] =>
      have := congrArg List.length hrest
      rw [length_flatten_eq_sumLen] at this
      have hlen := length_flatten_eq_sumLen ds
      have hsplit : sumLen (ds.take k) + sumLen (ds.drop k) = sumLen ds := by
        unfold sumLen
        rw [← List.sum_append, ← List.map_append, List.take_append_drop]
      simp only [List.length_nil] at this
      omega
  | b :: t =>
      have hb : validUTF8 (ds.drop k).flatten = true :=
        validUTF8_join fun d hd => h d (List.mem_of_mem_drop hd)
      rw [hrest] at hb
      exact validUTF8_head_not_cont hb

/-- The `k`-th piece of a flattening can be sliced back out by byte
offset and length. -/
theorem slice_flatten (ds : List (List Nat)) (k : Nat) (d : List Nat)
    (hk : ds.drop k = d :: (ds.drop (k + 1))) :
    (ds.flatten.drop (sumLen (ds.take k))).take d.length = d := by
  rw [drop_sumLen_flatten, hk, List.flatten_cons, take_len_append]

/-! ## String pool (`src/stringpool.rs`)

The pool is the concatenated UTF-8 buffer; the cache maps an interned
string to its `(offset, length)` token. -/

structure StringPool where
  pool : List Nat
  cache : List (List Nat × Nat × Nat)
  deriving Repr

/-- `StringPool::new`. -/
def StringPool.new : StringPool := ⟨[], []⟩

/-- `StringPool::load`: adopt a buffer; the cache starts empty. -/
def StringPool.load (pool : List Nat) : StringPool := ⟨pool, []⟩

/-- `HashMap::insert` on the cache (replace an existing key in place,
else append). -/
def cacheInsert (c : List (List Nat × Nat × Nat)) (k : List Nat)
    (v : Nat × Nat) : List (List Nat × Nat × Nat) :=
  match c with
  | [] => [(k, v)]
  | (k', v') :: rest =>
      if k = k' then (k, v) :: rest else (k', v') :: cacheInsert rest k v

/-- `HashMap::get` on the cache. -/
def cacheGet (c : List (List Nat × Nat × Nat)) (k : List Nat) :
    Option (Nat × Nat) :=
  match c with
  | [] => none
  | (k', v) :: rest => if k = k' then some v else cacheGet rest k

/-- `StringPool::pack`. The source looks the slice up in the cache and
builds a token from the hit, but that value is discarded (the `.map`
result is not returned), so control always falls through to the append
path below. -/
def StringPool.pack (sp : StringPool) (slice : List Nat) :
    StringPool × List Nat :=
  (⟨sp.pool ++ slice,
      cacheInsert sp.cache slice
        (sp.pool.length % 2 ^ 32, slice.length % 2 ^ 32)⟩,
    leBytes 4 (sp.pool.length % 2 ^ 32) ++ leBytes 4 (slice.length % 2 ^ 32))

/-- `StringPool::unpack` on an 8-byte token. `some []` is the in-source
out-of-bounds fallback (empty string plus a warning); `none` models the
panic of byte-range slicing at a non-character-boundary. -/
def StringPool.unpack (sp : StringPool) (data : List Nat) :
    Option (List Nat) :=
  if sp.pool.length < rdLe (data.take 4) + rdLe ((data.drop 4).take 4) then
    some []
  else if isCharBoundary sp.pool (rdLe (data.take 4)) &&
      isCharBoundary sp.pool
        (rdLe (data.take 4) + rdLe ((data.drop 4).take 4)) then
    some ((sp.pool.drop (rdLe (data.take 4))).take
      (rdLe ((data.drop 4).take 4)))
  else none

/-! ## Range entries and range sets (`src/store.rs`)

`IPRangeSet` is a `BTreeSet<IPRangeEntry>` whose entry ordering and
equality are on `starts` alone; it is modelled as a list kept strictly
sorted by `starts`. -/

structure IPRangeEntry where
  asn : Nat
  starts : Nat
  ends : Nat
  deriving Repr, DecidableEq

/-- Strict sortedness by `starts` — the `BTreeSet` representation
invariant (equal-`starts` entries are equal for the set's ordering). -/
def rsSorted (l : List IPRangeEntry) : Prop :=
  l.Pairwise (fun a b => a.starts < b.starts)

/-- `BTreeSet::insert` under the `starts`-only ordering: inserting an
entry whose `starts` is already present keeps the stored entry. -/
def rsInsert (l : List IPRangeEntry) (e : IPRangeEntry) :
    List IPRangeEntry :=
  match l with
  | [] => [e]
  | x :: xs =>
      if e.starts < x.starts then e :: x :: xs
      else if e.starts = x.starts then x :: xs
      else x :: rsInsert xs e

/-- `IPRangeSet::insert(starts, ends, asn)`. -/
def IPRangeSet.insert (l : List IPRangeEntry) (starts ends asn : Nat) :
    List IPRangeEntry :=
  rsInsert l ⟨asn, starts, ends⟩

/-- `IPRangeSet::find`: the last entry of `range(..=needle)` (the entry
with the greatest `starts ≤ needle`), accepted only if its `ends` covers
the needle. -/
def IPRangeSet.find (l : List IPRangeEntry) (needle : Nat) :
    Option IPRangeEntry :=
  match (l.filter (fun e => e.starts ≤ needle)).getLast? with
  | some o => if needle ≤ o.ends then some o else none
  | none => none

/-! ## ASN entries and the ASN table (`src/store.rs`) -/

structure ASNEntry where
  asn : Nat
  country : List Nat
  description : List Nat
  deriving Repr, DecidableEq

/-- `HashMap::insert` on the ASN table. -/
def mapInsert (m : List (Nat × ASNEntry)) (k : Nat) (v : ASNEntry) :
    List (Nat × ASNEntry) :=
  match m with
  | [] => [(k, v)]
  | (k', v') :: rest =>
      if k = k' then (k, v) :: rest else (k', v') :: mapInsert rest k v

/-- `HashMap::get` on the ASN table. -/
def mapGet (m : List (Nat × ASNEntry)) (k : Nat) : Option ASNEntry :=
  match m with
  | [] => none
  | (k', v) :: rest => if k = k' then some v else mapGet rest k

/-! ## The database -/

structure IPDatabase where
  ipv4 : List IPRangeEntry
  ipv6 : List IPRangeEntry
  asn_map : List (Nat × ASNEntry)
  deriving Repr

/-- `IPDatabase::new`. -/
def IPDatabase.new : IPDatabase := ⟨[], [], []⟩

/-! ## IP-literal and integer parsing

`str::parse::<IpAddr>` and `str::parse::<u32>` come from the standard
library, not from this repository. Modelled from the spec: strict
parsing of dotted-quad IPv4 and grouped-hex IPv6 literals (no
whitespace, no CIDR, no port), and decimal `u32` parsing with overflow
rejection. Every claim below factors through these functions, so only
their determinism matters to the proofs. -/

inductive IpAddr where
  | V4 (a : Nat)
  | V6 (a : Nat)
  deriving Repr, DecidableEq

def isDigit (b : Nat) : Bool := 48 ≤ b && b ≤ 57

def digitsVal (l : List Nat) : Nat :=
  l.foldl (fun a b => a * 10 + (b - 48)) 0

/-- Modelled from the spec: one IPv4 dotted-quad octet — 1 to 3 decimal
digits, no leading zero, value at most 255. -/
def parseOctet (l : List Nat) : Option Nat :=
  if l = [] then none
  else if ¬ l.all isDigit then none
  else if 1 < l.length ∧ l.head? = some 48 then none
  else if 3 < l.length then none
  else if digitsVal l ≤ 255 then some (digitsVal l) else none

/-- Modelled from the spec: strict dotted-quad IPv4 literal. -/
def parseIPv4 (s : List Nat) : Option Nat :=
  match splitByte 46 s with
  | [a, b, c, d] =>
      match parseOctet a, parseOctet b, parseOctet c, parseOctet d with
      | some x, some y, some z, some w =>
          some (((x * 256 + y) * 256 + z) * 256 + w)
      | _, _, _, _ => none
  | _ => none

def hexVal (b : Nat) : Option Nat :=
  if 48 ≤ b ∧ b ≤ 57 then some (b - 48)
  else if 97 ≤ b ∧ b ≤ 102 then some (b - 87)
  else if 65 ≤ b ∧ b ≤ 70 then some (b - 55)
  else none

/-- Modelled from the spec: one IPv6 group — 1 to 4 hex digits. -/
def parseHexGroup (l : List Nat) : Option Nat :=
  if l = [] ∨ 4 < l.length then none
  else
    l.foldl (fun acc b =>
      match acc, hexVal b with
      | some a, some v => some (a * 16 + v)
      | _, _ => none) (some 0)

def assembleV6 (gs : List Nat) : Nat :=
  gs.foldl (fun a g => a * 65536 + g) 0

/-- Parse every group of a piece list, failing if any fails. -/
def mapHexGroups : List (List Nat) → Option (List Nat)
  | [] => some []
  | p :: ps =>
      match parseHexGroup p, mapHexGroups ps with
      | some g, some gs => some (g :: gs)
      | _, _ => none

/-- Split a list of pieces at its first empty piece. -/
def splitAtEmpty : List (List Nat) → Option (List (List Nat) × List (List Nat))
  | [] => none
  | p :: ps =>
      if p = [] then some ([], ps)
      else
        match splitAtEmpty ps with
        | some (pre, post) => some (p :: pre, post)
        | none => none

/-- The `:`-separated pieces of an IPv6 literal, with a leading or
trailing `::` normalized to a single empty piece. -/
def v6Pieces (s : List Nat) : List (List Nat) :=
  let ps := splitByte 58 s
  let ps1 :=
    match ps with
    | [] :: [] :: rest => [] :: rest
    | _ => ps
  match ps1.reverse with
  | [] :: [] :: rest => ([] :: rest).reverse
  | _ => ps1

/-- Modelled from the spec: grouped-hex IPv6 literal with at most one
`::` compression (embedded-IPv4 tails are not modelled; no claim
depends on which v6 spellings parse). -/
def parseIPv6 (s : List Nat) : Option Nat :=
  if s = [58, 58] then some 0
  else
    match splitAtEmpty (v6Pieces s) with
    | some (pre, post) =>
        if post.contains [] then none
        else
          match mapHexGroups pre, mapHexGroups post with
          | some gs1, some gs2 =>
              if gs1.length + gs2.length ≤ 7 then
                some (assembleV6
                  (gs1 ++ List.replicate (8 - gs1.length - gs2.length) 0
                    ++ gs2))
              else none
          | _, _ => none
    | none =>
        match mapHexGroups (v6Pieces s) with
        | some gs => if gs.length = 8 then some (assembleV6 gs) else none
        | none => none

/-- Modelled from the spec: `IpAddr::from_str` tries IPv4 first, then
IPv6. -/
def parse_ip (s : List Nat) : Option IpAddr :=
  match parseIPv4 s with
  | some a => some (IpAddr.V4 a)
  | none =>
      match parseIPv6 s with
      | some a => some (IpAddr.V6 a)
      | none => none

/-- Decimal digits to `u32`, overflow rejected. -/
def parseU32Digits (l : List Nat) : Option Nat :=
  if l = [] ∨ ¬ l.all isDigit then none
  else if digitsVal l < 2 ^ 32 then some (digitsVal l) else none

/-- Modelled from the spec: `str::parse::<u32>` — optional `+` sign,
then decimal digits, overflow rejected. -/
def parseU32 (l : List Nat) : Option Nat :=
  parseU32Digits (match l with | 43 :: r => r | _ => l)

/-! ## TSV ingest (`IPDatabase::load_from_tsv`) -/

/-- Errors surfaced by the fallible operations. `invalidData` covers
both the header checks of `load` and `read_to_string` on non-UTF-8
input (both use `ErrorKind::InvalidData`); `eof` is
`ErrorKind::UnexpectedEof` from `read_exact`; `panicked` marks a Rust
panic (which is not an `io::Error` at all). -/
inductive LoadErr where
  | invalidData
  | eof
  | panicked
  deriving Repr, DecidableEq

/-- One line of `load_from_tsv`'s loop: split on tabs, take five fields,
parse the two range endpoints and the ASN, then the country code and
description; insert the ASN record, then insert the range into the index
of its family — a mixed-family line falls to the `continue` after the
map insertion. -/
def processLine (db : IPDatabase) (line : List Nat) : IPDatabase :=
  match (splitByte 9 line).take 5 with
  | f1 :: f2 :: f3 :: rest =>
      match parse_ip f1, parse_ip f2, parseU32 f3 with
      | some s, some e, some a =>
          match rest with
          | cc :: rest2 =>
              match rest2 with
              | desc :: _ =>
                  match s, e with
                  | IpAddr.V4 sv, IpAddr.V4 ev =>
                      { db with
                        asn_map := mapInsert db.asn_map a
                          ⟨a, if cc.length = 2 then cc else [0, 0], desc⟩,
                        ipv4 := IPRangeSet.insert db.ipv4 sv ev a }
                  | IpAddr.V6 sv, IpAddr.V6 ev =>
                      { db with
                        asn_map := mapInsert db.asn_map a
                          ⟨a, if cc.length = 2 then cc else [0, 0], desc⟩,
                        ipv6 := IPRangeSet.insert db.ipv6 sv ev a }
                  | _, _ =>
                      { db with
                        asn_map := mapInsert db.asn_map a
                          ⟨a, if cc.length = 2 then cc else [0, 0], desc⟩ }
              | [] => db
          | [] => db
      | _, _, _ => db
  | _ => db

/-- `IPDatabase::load_from_tsv`: `read_to_string` demands UTF-8, then
every `\n`-separated line is processed in order. -/
def IPDatabase.load_from_tsv (db : IPDatabase) (input : List Nat) :
    Except LoadErr IPDatabase :=
  if validUTF8 input then
    Except.ok ((splitByte 10 input).foldl processLine db)
  else Except.error LoadErr.invalidData

/-- `IPDatabase::load_from_tsv_file` opens the path with
`File::create`, which truncates the file to zero bytes and yields a
write-only handle. The file's contents after the call are empty; the
subsequent read is modelled charitably as reading the now-empty file
(on a real system it fails outright because the handle is write-only).
Returns the file contents after the call alongside the result. -/
def IPDatabase.load_from_tsv_file (db : IPDatabase) (_contents : List Nat) :
    List Nat × Except LoadErr IPDatabase :=
  ([], IPDatabase.load_from_tsv db [])

/-- `IPDatabase::query`. -/
def IPDatabase.query (db : IPDatabase) (ip : List Nat) : Option ASNEntry :=
  match parse_ip ip with
  | some (IpAddr.V4 a) =>
      match IPRangeSet.find db.ipv4 a with
      | some e => mapGet db.asn_map e.asn
      | none => none
  | some (IpAddr.V6 a) =>
      match IPRangeSet.find db.ipv6 a with
      | some e => mapGet db.asn_map e.asn
      | none => none
  | none => none

/-! ## Snapshot writer (`IPDatabase::save`) -/

/-- The 16-byte signature `_IPRANGECACHE_DB`. -/
def SIGNATURE : List Nat :=
  [95, 73, 80, 82, 65, 78, 71, 69, 67, 65, 67, 72, 69, 95, 68, 66]

/-- The ASN-record section: for each map entry in iteration order, pack
the description through the string pool and emit
`be32 asn ++ country ++ token`. -/
def asnRecBytes : List (Nat × ASNEntry) → StringPool → List Nat × StringPool
  | [], sp => ([], sp)
  | (k, e) :: rest, sp =>
      let (sp', tok) := StringPool.pack sp e.description
      let (bs, sp'') := asnRecBytes rest sp'
      (beBytes 4 k ++ e.country ++ tok ++ bs, sp'')

/-- A range section (`w = 4` for the v4 loop, `w = 16` for the v6
loop): each entry is `starts ++ ends ++ be32 asn` with `w`-byte keys. -/
def rangeBytes (w : Nat) (l : List IPRangeEntry) : List Nat :=
  (l.map (fun e => beBytes w e.starts ++ beBytes w e.ends ++ beBytes 4 e.asn)).flatten

/-- The body sections of a snapshot: ASN records, v4 ranges, v6 ranges. -/
def saveBody (db : IPDatabase) : List Nat :=
  (asnRecBytes db.asn_map StringPool.new).1 ++
    rangeBytes 4 db.ipv4 ++ rangeBytes 16 db.ipv6

/-- `IPDatabase::save` as the byte string it leaves in the file: header
(with the pool position and length patched in at offset 18 by the final
seek-back write), the three body sections, then the pool. -/
def IPDatabase.save (db : IPDatabase) : List Nat :=
  SIGNATURE ++ beBytes 2 2 ++
    beBytes 4 ((1024 + (saveBody db).length) % 2 ^ 32) ++
    beBytes 4 ((asnRecBytes db.asn_map StringPool.new).2.pool.length % 2 ^ 32) ++
    beBytes 4 0 ++
    beBytes 4 (db.asn_map.length % 2 ^ 32) ++
    beBytes 4 (db.ipv4.length % 2 ^ 32) ++
    beBytes 4 (db.ipv6.length % 2 ^ 32) ++
    List.replicate 982 0 ++ saveBody db ++
    (asnRecBytes db.asn_map StringPool.new).2.pool

/-! ## Snapshot reader (`IPDatabase::load`) -/

/-- The ASN-record read loop: 4 bytes of ASN, 2 of country, an 8-byte
token unpacked against the loaded pool. -/
def rdAsnRecs (pool : List Nat) :
    Nat → List Nat → List (Nat × ASNEntry) →
    Except LoadErr (List (Nat × ASNEntry) × List Nat)
  | 0, bs, acc => Except.ok (acc, bs)
  | n + 1, bs, acc =>
      if bs.length < 14 then Except.error LoadErr.eof
      else
        match StringPool.unpack (StringPool.load pool) ((bs.drop 6).take 8) with
        | some desc =>
            rdAsnRecs pool n (bs.drop 14)
              (mapInsert acc (rdBe (bs.take 4))
                ⟨rdBe (bs.take 4), (bs.drop 4).take 2, desc⟩)
        | none => Except.error LoadErr.panicked

/-- The range read loops (`w = 4` for v4, `w = 16` for v6): two keys of
width `w` then 4 bytes of ASN, inserted into the range set. -/
def rdRanges (w : Nat) :
    Nat → List Nat → List IPRangeEntry →
    Except LoadErr (List IPRangeEntry × List Nat)
  | 0, bs, acc => Except.ok (acc, bs)
  | n + 1, bs, acc =>
      if bs.length < 2 * w + 4 then Except.error LoadErr.eof
      else
        rdRanges w n (bs.drop (2 * w + 4))
          (IPRangeSet.insert acc (rdBe (bs.take w)) (rdBe ((bs.drop w).take w))
            (rdBe ((bs.drop (2 * w)).take 4)))

/-- `IPDatabase::load`: read and validate the 1024-byte header, read the
string pool (seek to the recorded position, `read_to_string` to the end
of file — which demands UTF-8), then parse the three record sections
starting at offset 1024. -/
def IPDatabase.load (bytes : List Nat) : Except LoadErr IPDatabase :=
  if bytes.length < 1024 then Except.error LoadErr.eof
  else if bytes.take 16 ≠ SIGNATURE then Except.error LoadErr.invalidData
  else if rdBe ((bytes.drop 16).take 2) ≠ 2 then Except.error LoadErr.invalidData
  else if ¬ validUTF8 (bytes.drop (rdBe ((bytes.drop 18).take 4))) then
    Except.error LoadErr.invalidData
  else
    match rdAsnRecs (bytes.drop (rdBe ((bytes.drop 18).take 4)))
        (rdBe ((bytes.drop 30).take 4)) (bytes.drop 1024) [] with
    | Except.error e => Except.error e
    | Except.ok (amap, rest2) =>
        match rdRanges 4 (rdBe ((bytes.drop 34).take 4)) rest2 [] with
        | Except.error e => Except.error e
        | Except.ok (v4, rest3) =>
            match rdRanges 16 (rdBe ((bytes.drop 38).take 4)) rest3 [] with
            | Except.error e => Except.error e
            | Except.ok (v6, _) => Except.ok ⟨v4, v6, amap⟩

/-! ## Range-set lemmas -/

theorem mem_rsInsert {l : List IPRangeEntry} {e x : IPRangeEntry}
    (h : x ∈ rsInsert l e) : x ∈ l ∨ x = e := by
  induction l with
  | nil => simpa [rsInsert] using h
  | cons y ys ih =>
      rw [rsInsert] at h
      split at h
      · rcases List.mem_cons.1 h with h' | h'
        · exact Or.inr h'
        · exact Or.inl h'
      · split at h
        · exact Or.inl h
        · rcases List.mem_cons.1 h with h' | h'
          · exact Or.inl (h' ▸ List.mem_cons_self y ys)
          · rcases ih h' with h'' | h''
            · exact Or.inl (List.mem_cons_of_mem y h'')
            · exact Or.inr h''

theorem rsInsert_sorted {l : List IPRangeEntry} {e : IPRangeEntry}
    (hs : rsSorted l) : rsSorted (rsInsert l e) := by
  induction l with
  | nil => simp [rsInsert, rsSorted]
  | cons y ys ih =>
      obtain ⟨hy, hys⟩ := List.pairwise_cons.1 hs
      rw [rsInsert]
      split
      · refine List.pairwise_cons.2 ⟨?_, List.pairwise_cons.2 ⟨hy, hys⟩⟩
        intro x hx
        rcases List.mem_cons.1 hx with h' | h'
        · subst h'; omega
        · have := hy x h'
          omega
      · split
        · exact List.pairwise_cons.2 ⟨hy, hys⟩
        · refine List.pairwise_cons.2 ⟨?_, ih hys⟩
          intro x hx
          rcases mem_rsInsert hx with h' | h'
          · exact hy x h'
          · subst h'; omega

theorem rsInsert_eq_self {l : List IPRangeEntry} {e y : IPRangeEntry}
    (hs : rsSorted l) (hy : y ∈ l) (hst : y.starts = e.starts) :
    rsInsert l e = l := by
  induction l with
  | nil => cases hy
  | cons x xs ih =>
      obtain ⟨hx, hxs⟩ := List.pairwise_cons.1 hs
      rcases List.mem_cons.1 hy with h' | h'
      · have hxe : x.starts = e.starts := by rw [← h']; exact hst
        rw [rsInsert, if_neg (by omega), if_pos hxe.symm]
      · have hlt : x.starts < y.starts := hx y h'
        have h1 : ¬ e.starts < x.starts := by omega
        have h2 : ¬ e.starts = x.starts := by omega
        rw [rsInsert, if_neg h1, if_neg h2, ih hxs h']

theorem rsInsert_append {l : List IPRangeEntry} {e : IPRangeEntry}
    (h : ∀ x ∈ l, x.starts < e.starts) : rsInsert l e = l ++ [e] := by
  induction l with
  | nil => rfl
  | cons y ys ih =>
      have hy := h y (List.mem_cons_self y ys)
      rw [rsInsert, if_neg (by omega), if_neg (by omega),
        ih fun x hx => h x (List.mem_cons_of_mem y hx)]
      rfl

theorem foldl_rsInsert_sorted :
    ∀ (entries acc : List IPRangeEntry), rsSorted (acc ++ entries) →
      entries.foldl (fun m e => rsInsert m e) acc = acc ++ entries := by
  intro entries
  induction entries with
  | nil => intro acc _; simp
  | cons e es ih =>
      intro acc hs
      have hlt : ∀ x ∈ acc, x.starts < e.starts := by
        intro x hx
        rw [rsSorted, List.pairwise_append] at hs
        exact hs.2.2 x hx e (List.mem_cons_self e es)
      rw [List.foldl_cons, rsInsert_append hlt]
      have : acc ++ [e] ++ es = acc ++ e :: es := by simp
      rw [ih (acc ++ [e]) (by rw [this]; exact hs), this]

/-! ## `find` characterization -/

theorem find_some_covers {l : List IPRangeEntry} {needle : Nat}
    {o : IPRangeEntry} (h : IPRangeSet.find l needle = some o) :
    o ∈ l ∧ o.starts ≤ needle ∧ needle ≤ o.ends := by
  unfold IPRangeSet.find at h
  revert h
  cases hl : (l.filter (fun e => e.starts ≤ needle)).getLast? with
  | none => intro h; cases h
  | some y =>
      intro h
      have h' : (if needle ≤ y.ends then some y else none) = some o := h
      have hy := List.mem_of_mem_getLast? hl
      rw [List.mem_filter] at hy
      by_cases hc : needle ≤ y.ends
      · rw [if_pos hc] at h'
        cases h'
        exact ⟨hy.1, by simpa using hy.2, hc⟩
      · rw [if_neg hc] at h'
        cases h' 

theorem getLast?_pairwise_max {R : IPRangeEntry → IPRangeEntry → Prop}
    {l : List IPRangeEntry} {o : IPRangeEntry}
    (hp : l.Pairwise R) (h : l.getLast? = some o) :
    ∀ x ∈ l, x = o ∨ R x o := by
  induction l with
  | nil => cases h
  | cons a t ih =>
      intro x hx
      match t with
      | [] =>
          have : a = o := by simpa using h
          rcases List.mem_cons.1 hx with h' | h'
          · exact Or.inl (h' ▸ this)
          · cases h'
      | b :: t' =>
          have ht : (b :: t').getLast? = some o := h
          rw [List.pairwise_cons] at hp
          rcases List.mem_cons.1 hx with h' | h'
          · subst h'
            have ho := List.mem_of_mem_getLast? ht
            exact Or.inr (hp.1 o ho)
          · exact ih hp.2 ht x h'

theorem find_maximal {l : List IPRangeEntry} {needle : Nat}
    {o : IPRangeEntry} (hs : rsSorted l)
    (h : IPRangeSet.find l needle = some o) :
    ∀ e' ∈ l, e'.starts ≤ needle → e'.starts ≤ o.starts := by
  intro e' he' hle
  unfold IPRangeSet.find at h
  revert h
  cases hl : (l.filter (fun e => e.starts ≤ needle)).getLast? with
  | none => intro h; cases h
  | some y =>
      intro h
      have h' : (if needle ≤ y.ends then some y else none) = some o := h
      have hyo : y = o := by
        by_cases hc : needle ≤ y.ends
        · rw [if_pos hc] at h'; cases h'; rfl
        · rw [if_neg hc] at h'; cases h'
      subst hyo
      have hfil : (l.filter (fun e => e.starts ≤ needle)).Pairwise
          (fun a b => a.starts < b.starts) := List.Pairwise.filter _ hs
      have he'f : e' ∈ l.filter (fun e => e.starts ≤ needle) := by
        rw [List.mem_filter]; exact ⟨he', by simpa using hle⟩
      rcases getLast?_pairwise_max hfil hl e' he'f with h' | h'
      · exact h' ▸ le_refl _
      · exact Nat.le_of_lt h'

theorem find_complete {l : List IPRangeEntry} {needle : Nat}
    {o : IPRangeEntry} (hs : rsSorted l) (ho : o ∈ l)
    (h1 : o.starts ≤ needle)
    (hmax : ∀ e' ∈ l, e'.starts ≤ needle → e'.starts ≤ o.starts) :
    IPRangeSet.find l needle = if needle ≤ o.ends then some o else none := by
  have hof : o ∈ l.filter (fun e => e.starts ≤ needle) := by
    rw [List.mem_filter]; exact ⟨ho, by simpa using h1⟩
  have hne : l.filter (fun e => e.starts ≤ needle) ≠ [] :=
    List.ne_nil_of_mem hof
  match hl : (l.filter (fun e => e.starts ≤ needle)).getLast? with
  | none => exact absurd (List.getLast?_eq_none_iff.1 hl) hne
  | some y =>
      have hy := List.mem_of_mem_getLast? hl
      rw [List.mem_filter] at hy
      have hyle : y.starts ≤ o.starts := hmax y hy.1 (by simpa using hy.2)
      have hfil : (l.filter (fun e => e.starts ≤ needle)).Pairwise
          (fun a b => a.starts < b.starts) := List.Pairwise.filter _ hs
      have : o = y ∨ o.starts < y.starts := getLast?_pairwise_max hfil hl o hof
      have hoy : o = y := by
        rcases this with h' | h'
        · exact h'
        · omega
      subst hoy
      unfold IPRangeSet.find
      rw [hl]

theorem find_none_of_not_covered {l : List IPRangeEntry} {v : Nat}
    (h : ¬ ∃ e ∈ l, e.starts ≤ v ∧ v ≤ e.ends) :
    IPRangeSet.find l v = none := by
  match hf : IPRangeSet.find l v with
  | none => rfl
  | some o =>
      obtain ⟨ho, h1, h2⟩ := find_some_covers hf
      exact absurd ⟨o, ho, h1, h2⟩ h

theorem find_none_of_all_gt {l : List IPRangeEntry} {needle : Nat}
    (h : ∀ e ∈ l, needle < e.starts) : IPRangeSet.find l needle = none := by
  have : l.filter (fun e => e.starts ≤ needle) = [] := by
    rw [List.filter_eq_nil_iff]
    intro e he
    simpa using Nat.not_le_of_lt (h e he)
  unfold IPRangeSet.find
  rw [this]
  rfl

/-! ## ASN-table lemmas -/

theorem mapGet_mapInsert_self (m : List (Nat × ASNEntry)) (k : Nat)
    (v : ASNEntry) : mapGet (mapInsert m k v) k = some v := by
  induction m with
  | nil => simp [mapInsert, mapGet]
  | cons p rest ih =>
      rw [mapInsert]
      split
      · rw [mapGet, if_pos rfl]
      · rw [mapGet]
        split
        · omega
        · exact ih

theorem mapGet_mapInsert_other {m : List (Nat × ASNEntry)} {k k' : Nat}
    (v : ASNEntry) (h : k' ≠ k) :
    mapGet (mapInsert m k v) k' = mapGet m k' := by
  induction m with
  | nil => simp [mapInsert, mapGet, h]
  | cons p rest ih =>
      rw [mapInsert]
      split
      · rename_i heq
        simp only [mapGet]
        rw [if_neg h, if_neg (show k' ≠ p.1 from heq ▸ h)]
      · simp only [mapGet]
        split
        · rfl
        · exact ih

theorem mapInsert_absent {m : List (Nat × ASNEntry)} {k : Nat}
    (v : ASNEntry) (h : mapGet m k = none) :
    mapInsert m k v = m ++ [(k, v)] := by
  induction m with
  | nil => rfl
  | cons p rest ih =>
      rw [mapGet] at h
      split at h
      · cases h
      · rw [mapInsert, if_neg (by assumption), ih h]
        rfl

theorem mapGet_append_left_none {m₁ m₂ : List (Nat × ASNEntry)} {k : Nat}
    (h : mapGet m₁ k = none) : mapGet (m₁ ++ m₂) k = mapGet m₂ k := by
  induction m₁ with
  | nil => rfl
  | cons p rest ih =>
      rw [mapGet] at h
      split at h
      · cases h
      · rw [List.cons_append, mapGet, if_neg (by assumption)]
        exact ih h

theorem foldl_mapInsert_fresh :
    ∀ (entries : List (Nat × ASNEntry)) (acc : List (Nat × ASNEntry)),
      (entries.map Prod.fst).Nodup →
      (∀ p ∈ entries, mapGet acc p.1 = none) →
      entries.foldl (fun m p => mapInsert m p.1 p.2) acc = acc ++ entries := by
  intro entries
  induction entries with
  | nil => intro acc _ _; simp
  | cons p ps ih =>
      intro acc hnd hfresh
      rw [List.foldl_cons,
        mapInsert_absent p.2 (hfresh p (List.mem_cons_self p ps))]
      rw [List.map_cons, List.nodup_cons] at hnd
      have hfresh' : ∀ q ∈ ps, mapGet (acc ++ [(p.1, p.2)]) q.1 = none := by
        intro q hq
        rw [mapGet_append_left_none (hfresh q (List.mem_cons_of_mem p hq))]
        rw [mapGet]
        rw [if_neg, mapGet]
        intro hqp
        exact hnd.1 (hqp ▸ List.mem_map_of_mem Prod.fst hq)
      rw [ih (acc ++ [(p.1, p.2)]) hnd.2 hfresh']
      simp

theorem mapGet_some_mem {m : List (Nat × ASNEntry)} {k : Nat} {v : ASNEntry}
    (h : mapGet m k = some v) : (k, v) ∈ m := by
  induction m with
  | nil => cases h
  | cons p rest ih =>
      rw [mapGet] at h
      split at h
      · cases h
        rename_i heq
        subst heq
        exact List.mem_cons_self _ _
      · exact List.mem_cons_of_mem p (ih h)

theorem mem_mapInsert {m : List (Nat × ASNEntry)} {k : Nat} {v : ASNEntry}
    {q : Nat × ASNEntry} (h : q ∈ mapInsert m k v) : q ∈ m ∨ q = (k, v) := by
  induction m with
  | nil => simpa [mapInsert] using h
  | cons p rest ih =>
      rw [mapInsert] at h
      split at h
      · rcases List.mem_cons.1 h with h' | h'
        · exact Or.inr h'
        · exact Or.inl (List.mem_cons_of_mem p h')
      · rcases List.mem_cons.1 h with h' | h'
        · exact Or.inl (h' ▸ List.mem_cons_self p rest)
        · rcases ih h' with h'' | h''
          · exact Or.inl (List.mem_cons_of_mem p h'')
          · exact Or.inr h''

theorem mapInsert_keys_nodup {m : List (Nat × ASNEntry)} {k : Nat}
    (v : ASNEntry) (h : (m.map Prod.fst).Nodup) :
    ((mapInsert m k v).map Prod.fst).Nodup := by
  induction m with
  | nil => simp [mapInsert]
  | cons p rest ih =>
      rw [List.map_cons, List.nodup_cons] at h
      rw [mapInsert]
      split
      · rename_i heq
        rw [List.map_cons, List.nodup_cons]
        exact ⟨by simpa [heq] using h.1, h.2⟩
      · rw [List.map_cons, List.nodup_cons]
        constructor
        · intro hmem
          rw [List.mem_map] at hmem
          obtain ⟨q, hq, hq1⟩ := hmem
          rcases mem_mapInsert hq with h' | h'
          · exact h.1 (hq1 ▸ List.mem_map_of_mem Prod.fst h')
          · rename_i hne
            exact hne (by rw [h'] at hq1; exact hq1)
        · exact ih h.2

/-! ## Parse bounds -/

theorem parseOctet_le {l : List Nat} {v : Nat} (h : parseOctet l = some v) :
    v ≤ 255 := by
  unfold parseOctet at h
  split_ifs at h with h1 h2 h3 h4 h5 <;> cases h
  assumption

theorem parseIPv4_lt {s : List Nat} {v : Nat} (h : parseIPv4 s = some v) :
    v < 2 ^ 32 := by
  unfold parseIPv4 at h
  split at h
  · rename_i a b c d heq
    revert h
    match h1 : parseOctet a, h2 : parseOctet b, h3 : parseOctet c,
        h4 : parseOctet d with
    | some x, some y, some z, some w =>
        intro h
        cases h
        have b1 := parseOctet_le h1
        have b2 := parseOctet_le h2
        have b3 := parseOctet_le h3
        have b4 := parseOctet_le h4
        omega
    | some _, some _, some _, none => intro h; cases h
    | some _, some _, none, _ => intro h; cases h
    | some _, none, _, _ => intro h; cases h
    | none, _, _, _ => intro h; cases h
  · cases h

theorem hexVal_lt {b v : Nat} (h : hexVal b = some v) : v < 16 := by
  unfold hexVal at h
  split_ifs at h <;> (cases h; omega)

theorem hexFold_none (l : List Nat) :
    (l.foldl (fun acc b =>
      match acc, hexVal b with
      | some a, some v => some (a * 16 + v)
      | _, _ => none) none) = none := by
  induction l with
  | nil => rfl
  | cons b r ih => simpa using ih

theorem hexFold_lt :
    ∀ (l : List Nat) (acc g B : Nat), acc < B →
      (l.foldl (fun acc b =>
        match acc, hexVal b with
        | some a, some v => some (a * 16 + v)
        | _, _ => none) (some acc)) = some g →
      g < B * 16 ^ l.length := by
  intro l
  induction l with
  | nil =>
      intro acc g B hB h
      cases h
      simpa using hB
  | cons b r ih =>
      intro acc g B hB h
      rw [List.foldl_cons] at h
      revert h
      match hv : hexVal b with
      | some v =>
          intro h
          have hacc : acc * 16 + v < B * 16 := by
            have := hexVal_lt hv
            omega
          have := ih (acc * 16 + v) g (B * 16) hacc h
          calc g < B * 16 * 16 ^ r.length := this
            _ = B * 16 ^ (b :: r).length := by
                rw [List.length_cons]
                ring
      | none =>
          intro h
          rw [hexFold_none] at h
          cases h

theorem parseHexGroup_lt {l : List Nat} {g : Nat}
    (h : parseHexGroup l = some g) : g < 65536 := by
  unfold parseHexGroup at h
  by_cases h1 : l = [] ∨ 4 < l.length
  · rw [if_pos h1] at h
    cases h
  · rw [if_neg h1] at h
    have hlen : l.length ≤ 4 := by
      rcases not_or.1 h1 with ⟨_, h2⟩
      omega
    have := hexFold_lt l 0 g 1 (by omega) h
    calc g < 1 * 16 ^ l.length := this
      _ ≤ 1 * 16 ^ 4 := by
          apply Nat.mul_le_mul_left
          exact Nat.pow_le_pow_right (by omega) hlen
      _ = 65536 := by norm_num

theorem mapHexGroups_lt :
    ∀ {ps : List (List Nat)} {gs : List Nat}, mapHexGroups ps = some gs →
      ∀ g ∈ gs, g < 65536 := by
  intro ps
  induction ps with
  | nil =>
      intro gs h g hg
      cases h
      cases hg
  | cons p ps ih =>
      intro gs h g hg
      rw [mapHexGroups] at h
      revert h
      match h1 : parseHexGroup p, h2 : mapHexGroups ps with
      | some x, some xs =>
          intro h
          cases h
          rcases List.mem_cons.1 hg with h' | h'
          · exact h' ▸ parseHexGroup_lt h1
          · exact ih h2 g h'
      | some _, none => intro h; cases h
      | none, _ => intro h; cases h

theorem assembleV6_lt :
    ∀ (gs : List Nat) (acc B : Nat), acc < B → (∀ g ∈ gs, g < 65536) →
      gs.foldl (fun a g => a * 65536 + g) acc < B * 65536 ^ gs.length := by
  intro gs
  induction gs with
  | nil =>
      intro acc B hB _
      simpa using hB
  | cons g gs ih =>
      intro acc B hB hbound
      rw [List.foldl_cons]
      have hg := hbound g (List.mem_cons_self g gs)
      have hacc : acc * 65536 + g < B * 65536 := by omega
      have := ih (acc * 65536 + g) (B * 65536) hacc
        (fun x hx => hbound x (List.mem_cons_of_mem g hx))
      calc gs.foldl (fun a g => a * 65536 + g) (acc * 65536 + g)
          < B * 65536 * 65536 ^ gs.length := this
        _ = B * 65536 ^ (g :: gs).length := by
            rw [List.length_cons]
            ring

theorem parseIPv6_lt {s : List Nat} {v : Nat} (h : parseIPv6 s = some v) :
    v < 2 ^ 128 := by
  have key : ∀ (gs : List Nat), (∀ g ∈ gs, g < 65536) → gs.length = 8 →
      assembleV6 gs < 2 ^ 128 := by
    intro gs hb hlen
    have := assembleV6_lt gs 0 1 (by omega) hb
    rw [hlen] at this
    unfold assembleV6
    calc gs.foldl (fun a g => a * 65536 + g) 0 < 1 * 65536 ^ 8 := this
      _ = 2 ^ 128 := by norm_num
  unfold parseIPv6 at h
  by_cases h0 : s = [58, 58]
  · rw [if_pos h0] at h
    cases h
    norm_num
  · rw [if_neg h0] at h
    revert h
    match hsp : splitAtEmpty (v6Pieces s) with
    | some (pre, post) =>
        intro h
        have hr : (if post.contains [] = true then none
            else
              match mapHexGroups pre, mapHexGroups post with
              | some gs1, some gs2 =>
                  if gs1.length + gs2.length ≤ 7 then
                    some (assembleV6
                      (gs1 ++ List.replicate (8 - gs1.length - gs2.length) 0
                        ++ gs2))
                  else none
              | _, _ => none) = some v := h
        clear h
        by_cases hc : post.contains [] = true
        · rw [if_pos hc] at hr
          cases hr
        · rw [if_neg hc] at hr
          revert hr
          match h1 : mapHexGroups pre, h2 : mapHexGroups post with
          | some gs1, some gs2 =>
              intro hr2
              have hr : (if gs1.length + gs2.length ≤ 7 then
                  some (assembleV6
                    (gs1 ++ List.replicate (8 - gs1.length - gs2.length) 0
                      ++ gs2))
                else none) = some v := hr2
              by_cases hlen : gs1.length + gs2.length ≤ 7
              · rw [if_pos hlen] at hr
                cases hr
                apply key
                · intro g hg
                  rcases List.mem_append.1 hg with h' | h'
                  · rcases List.mem_append.1 h' with h'' | h''
                    · exact mapHexGroups_lt h1 g h''
                    · have := List.eq_of_mem_replicate h''
                      omega
                  · exact mapHexGroups_lt h2 g h'
                · simp only [List.length_append, List.length_replicate]
                  omega
              · rw [if_neg hlen] at hr
                cases hr
          | some _, none => intro hr; cases hr
          | none, _ => intro hr; cases hr
    | none =>
        intro h
        have hr : (match mapHexGroups (v6Pieces s) with
            | some gs => if gs.length = 8 then some (assembleV6 gs) else none
            | none => none) = some v := h
        clear h
        revert hr
        match h1 : mapHexGroups (v6Pieces s) with
        | some gs =>
            intro hr2
            have hr : (if gs.length = 8 then some (assembleV6 gs) else none)
                = some v := hr2
            by_cases hlen : gs.length = 8
            · rw [if_pos hlen] at hr
              cases hr
              exact key gs (mapHexGroups_lt h1) hlen
            · rw [if_neg hlen] at hr
              cases hr
        | none => intro hr; cases hr

theorem parseU32Digits_lt {l : List Nat} {v : Nat}
    (h : parseU32Digits l = some v) : v < 2 ^ 32 := by
  unfold parseU32Digits at h
  split_ifs at h with h1 h2 <;> cases h
  assumption

theorem parseU32_lt {l : List Nat} {v : Nat} (h : parseU32 l = some v) :
    v < 2 ^ 32 := parseU32Digits_lt h

theorem parse_ip_v4_lt {s : List Nat} {v : Nat}
    (h : parse_ip s = some (IpAddr.V4 v)) : v < 2 ^ 32 := by
  unfold parse_ip at h
  revert h
  match h4 : parseIPv4 s with
  | some a =>
      intro h
      cases h
      exact parseIPv4_lt h4
  | none =>
      match h6 : parseIPv6 s with
      | some a => intro h; cases h
      | none => intro h; cases h

theorem parse_ip_v6_lt {s : List Nat} {v : Nat}
    (h : parse_ip s = some (IpAddr.V6 v)) : v < 2 ^ 128 := by
  unfold parse_ip at h
  revert h
  match h4 : parseIPv4 s with
  | some a => intro h; cases h
  | none =>
      match h6 : parseIPv6 s with
      | some a =>
          intro h
          cases h
          exact parseIPv6_lt h6
      | none => intro h; cases h

/-! ## Well-formedness invariants -/

/-- The representation invariant ingest establishes: strictly sorted
range indexes with machine-width bounds, distinct ASN keys, and each
record storing its own key, a two-byte country tag, and a valid UTF-8
description. -/
def dbWF (db : IPDatabase) : Prop :=
  rsSorted db.ipv4 ∧ rsSorted db.ipv6 ∧
  (∀ e ∈ db.ipv4, e.starts < 2 ^ 32 ∧ e.ends < 2 ^ 32 ∧ e.asn < 2 ^ 32) ∧
  (∀ e ∈ db.ipv6, e.starts < 2 ^ 128 ∧ e.ends < 2 ^ 128 ∧ e.asn < 2 ^ 32) ∧
  (db.asn_map.map Prod.fst).Nodup ∧
  (∀ p ∈ db.asn_map, p.2.asn = p.1 ∧ p.1 < 2 ^ 32 ∧
    p.2.country.length = 2 ∧ validUTF8 p.2.description = true)

theorem dbWF_new : dbWF IPDatabase.new := by
  refine ⟨List.Pairwise.nil, List.Pairwise.nil, ?_, ?_, List.nodup_nil, ?_⟩ <;>
    (intro x hx; cases hx)

/-- Referential integrity: every range's ASN is a key of the table. -/
def refIntegrity (db : IPDatabase) : Prop :=
  (∀ e ∈ db.ipv4, (mapGet db.asn_map e.asn).isSome = true) ∧
  (∀ e ∈ db.ipv6, (mapGet db.asn_map e.asn).isSome = true)

theorem processLine_wf {db : IPDatabase} {line : List Nat}
    (hwf : dbWF db) (hline : validUTF8 line = true) :
    dbWF (processLine db line) := by
  obtain ⟨h4s, h6s, h4b, h6b, hnd, hent⟩ := hwf
  unfold processLine
  split
  case h_2 => exact ⟨h4s, h6s, h4b, h6b, hnd, hent⟩
  rename_i f1 f2 f3 rest heq
  split
  case h_2 => exact ⟨h4s, h6s, h4b, h6b, hnd, hent⟩
  rename_i s e a hs he ha
  split
  case h_2 => exact ⟨h4s, h6s, h4b, h6b, hnd, hent⟩
  rename_i cc rest2
  split
  case h_2 => exact ⟨h4s, h6s, h4b, h6b, hnd, hent⟩
  rename_i desc rest3
  have hdesc : validUTF8 desc = true := by
    have hmem5 : desc ∈ (splitByte 9 line).take 5 := by
      rw [heq]
      simp
    have hmem : desc ∈ splitByte 9 line :=
      List.mem_of_mem_take hmem5
    exact validUTF8_splitByte (by norm_num) hline desc hmem
  have hcountry : (if cc.length = 2 then cc else [0, 0]).length = 2 := by
    split
    · assumption
    · rfl
  have ha32 := parseU32_lt ha
  have hmap :
      ∀ p ∈ mapInsert db.asn_map a
        ⟨a, if cc.length = 2 then cc else [0, 0], desc⟩,
      p.2.asn = p.1 ∧ p.1 < 2 ^ 32 ∧
        p.2.country.length = 2 ∧ validUTF8 p.2.description = true := by
    intro p hp
    rcases mem_mapInsert hp with h' | h'
    · exact hent p h'
    · subst h'
      exact ⟨rfl, ha32, hcountry, hdesc⟩
  have hnd' := mapInsert_keys_nodup
    (m := db.asn_map) (k := a)
    ⟨a, if cc.length = 2 then cc else [0, 0], desc⟩ hnd
  split
  case h_1 sv ev =>
    refine ⟨rsInsert_sorted h4s, h6s, ?_, h6b, hnd', hmap⟩
    intro x hx
    rcases mem_rsInsert hx with h' | h'
    · exact h4b x h'
    · subst h'
      exact ⟨parse_ip_v4_lt hs, parse_ip_v4_lt he, ha32⟩
  case h_2 sv ev =>
    refine ⟨h4s, rsInsert_sorted h6s, h4b, ?_, hnd', hmap⟩
    intro x hx
    rcases mem_rsInsert hx with h' | h'
    · exact h6b x h'
    · subst h'
      exact ⟨parse_ip_v6_lt hs, parse_ip_v6_lt he, ha32⟩
  case h_3 =>
    exact ⟨h4s, h6s, h4b, h6b, hnd', hmap⟩

theorem load_from_tsv_wf {db db' : IPDatabase} {input : List Nat}
    (hwf : dbWF db)
    (h : IPDatabase.load_from_tsv db input = Except.ok db') : dbWF db' := by
  unfold IPDatabase.load_from_tsv at h
  split_ifs at h with hv
  · cases h
    have : ∀ (lines : List (List Nat)) (d : IPDatabase), dbWF d →
        (∀ p ∈ lines, validUTF8 p = true) →
        dbWF (lines.foldl processLine d) := by
      intro lines
      induction lines with
      | nil => intro d hd _; exact hd
      | cons p ps ih =>
          intro d hd hall
          rw [List.foldl_cons]
          exact ih (processLine d p)
            (processLine_wf hd (hall p (List.mem_cons_self p ps)))
            fun q hq => hall q (List.mem_cons_of_mem p hq)
    exact this (splitByte 10 input) db hwf
      (validUTF8_splitByte (by norm_num) hv)

/-! ## Snapshot round-trip machinery -/

theorem take_append_len {α : Type _} {a b : List α} {n : Nat}
    (h : a.length = n) : (a ++ b).take n = a := by
  subst h
  exact take_len_append a b

theorem drop_append_len {α : Type _} {a b : List α} {n : Nat}
    (h : a.length = n) : (a ++ b).drop n = b := by
  subst h
  exact drop_len_append a b

theorem asnRecBytes_pool :
    ∀ (entries : List (Nat × ASNEntry)) (sp : StringPool),
      (asnRecBytes entries sp).2.pool =
        sp.pool ++ (entries.map fun p => p.2.description).flatten := by
  intro entries
  induction entries with
  | nil => intro sp; simp [asnRecBytes]
  | cons p rest ih =>
      intro sp
      rw [asnRecBytes]
      simp only [StringPool.pack]
      rw [ih]
      simp [List.flatten_cons]

theorem asnRecBytes_bytes :
    ∀ (entries : List (Nat × ASNEntry)) (sp : StringPool),
      (asnRecBytes entries sp).1 =
        match entries with
        | [] => []
        | (k, e) :: rest =>
            beBytes 4 k ++ e.country ++
              (leBytes 4 (sp.pool.length % 2 ^ 32) ++
                leBytes 4 (e.description.length % 2 ^ 32)) ++
              (asnRecBytes rest
                ⟨sp.pool ++ e.description,
                  cacheInsert sp.cache e.description
                    (sp.pool.length % 2 ^ 32,
                      e.description.length % 2 ^ 32)⟩).1 := by
  intro entries sp
  match entries with
  | [] => rfl
  | (k, e) :: rest => rfl

theorem asnRecBytes_length :
    ∀ (entries : List (Nat × ASNEntry)) (sp : StringPool),
      (∀ p ∈ entries, p.2.country.length = 2) →
      (asnRecBytes entries sp).1.length = 14 * entries.length := by
  intro entries
  induction entries with
  | nil => intro sp _; rfl
  | cons p rest ih =>
      intro sp hc
      match p with
      | (k, e) =>
          rw [asnRecBytes]
          simp only [StringPool.pack]
          simp only [List.length_append, beBytes_length, leBytes_length,
            List.length_cons]
          rw [ih _ fun q hq => hc q (List.mem_cons_of_mem _ hq)]
          have : e.country.length = 2 := hc (k, e) (List.mem_cons_self _ _)
          rw [this]
          ring

theorem rangeBytes_length (w : Nat) (l : List IPRangeEntry) :
    (rangeBytes w l).length = (2 * w + 4) * l.length := by
  induction l with
  | nil => simp [rangeBytes]
  | cons e es ih =>
      unfold rangeBytes at ih ⊢
      rw [List.map_cons, List.flatten_cons]
      simp only [List.length_append, beBytes_length, List.length_cons]
      rw [ih]
      ring

theorem rdRanges_of_saved (w : Nat) :
    ∀ (entries : List IPRangeEntry) (tail : List Nat)
      (acc : List IPRangeEntry),
      (∀ x ∈ entries, x.starts < 256 ^ w ∧ x.ends < 256 ^ w ∧
        x.asn < 2 ^ 32) →
      rdRanges w entries.length (rangeBytes w entries ++ tail) acc =
        Except.ok (entries.foldl (fun m x => rsInsert m x) acc, tail) := by
  intro entries
  induction entries with
  | nil =>
      intro tail acc _
      simp [rangeBytes, rdRanges]
  | cons e es ih =>
      intro tail acc hb
      obtain ⟨hs, he, ha⟩ := hb e (List.mem_cons_self e es)
      have hb' := fun x hx => hb x (List.mem_cons_of_mem e hx)
      rw [List.length_cons, rdRanges]
      unfold rangeBytes
      rw [List.map_cons, List.flatten_cons]
      have hassoc :
          (beBytes w e.starts ++ beBytes w e.ends ++ beBytes 4 e.asn) ++
              (es.map fun x =>
                beBytes w x.starts ++ beBytes w x.ends ++ beBytes 4 x.asn).flatten
              ++ tail =
            beBytes w e.starts ++ (beBytes w e.ends ++ (beBytes 4 e.asn ++
              (rangeBytes w es ++ tail))) := by
        unfold rangeBytes
        simp [List.append_assoc]
      rw [hassoc]
      have hlen4 : (beBytes 4 e.asn ++ (rangeBytes w es ++ tail)).length =
          4 + (rangeBytes w es ++ tail).length := by
        simp [beBytes_length]
      have hlenfull :
          (beBytes w e.starts ++ (beBytes w e.ends ++ (beBytes 4 e.asn ++
            (rangeBytes w es ++ tail)))).length =
          2 * w + 4 + (rangeBytes w es ++ tail).length := by
        simp only [List.length_append, beBytes_length]
        omega
      rw [if_neg (by omega)]
      have htake : (beBytes w e.starts ++ (beBytes w e.ends ++
          (beBytes 4 e.asn ++ (rangeBytes w es ++ tail)))).take w =
          beBytes w e.starts := take_append_len (beBytes_length w _)
      have hdropw : (beBytes w e.starts ++ (beBytes w e.ends ++
          (beBytes 4 e.asn ++ (rangeBytes w es ++ tail)))).drop w =
          beBytes w e.ends ++ (beBytes 4 e.asn ++ (rangeBytes w es ++ tail)) :=
        drop_append_len (beBytes_length w _)
      have hdrop2w : (beBytes w e.starts ++ (beBytes w e.ends ++
          (beBytes 4 e.asn ++ (rangeBytes w es ++ tail)))).drop (2 * w) =
          beBytes 4 e.asn ++ (rangeBytes w es ++ tail) := by
        rw [show 2 * w = w + w by ring, ← List.drop_drop, hdropw]
        exact drop_append_len (beBytes_length w _)
      have hdropall : (beBytes w e.starts ++ (beBytes w e.ends ++
          (beBytes 4 e.asn ++ (rangeBytes w es ++ tail)))).drop (2 * w + 4) =
          rangeBytes w es ++ tail := by
        have h1 := congrArg (List.drop 4) hdrop2w
        rw [List.drop_drop] at h1
        rw [h1]
        exact drop_append_len (beBytes_length 4 _)
      rw [htake, hdropw, hdrop2w, hdropall]
      rw [take_append_len (beBytes_length w _),
        take_append_len (beBytes_length 4 _)]
      rw [rdBe_beBytes_of_lt hs, rdBe_beBytes_of_lt he, rdBe_beBytes_of_lt ha]
      have hentry : IPRangeSet.insert acc e.starts e.ends e.asn =
          rsInsert acc e := rfl
      rw [hentry, ih tail (rsInsert acc e) hb']
      rw [List.foldl_cons]

/-- Descriptions of a map prefix/suffix decomposition, reassociated. -/
theorem descs_reassoc (pre : List (List Nat)) (k : Nat) (e : ASNEntry)
    (rest : List (Nat × ASNEntry)) :
    (pre ++ [e.description]) ++ rest.map (fun p => p.2.description) =
      pre ++ ((k, e) :: rest).map (fun p => p.2.description) := by
  simp

/-- Parsing the ASN-record section written by `asnRecBytes` against the
final pool recovers the original entries (generalized over a packed
prefix `pre`, the cache, the unread tail, and the accumulator). -/
theorem rdAsnRecs_of_saved :
    ∀ (entries : List (Nat × ASNEntry)) (pre : List (List Nat))
      (cache : List (List Nat × Nat × Nat)) (tail : List Nat)
      (acc : List (Nat × ASNEntry)),
      (∀ d ∈ pre ++ entries.map (fun p => p.2.description),
        validUTF8 d = true) →
      (pre ++ entries.map (fun p => p.2.description)).flatten.length
        < 2 ^ 32 →
      (∀ p ∈ entries, p.2.asn = p.1 ∧ p.1 < 2 ^ 32 ∧
        p.2.country.length = 2) →
      rdAsnRecs ((pre ++ entries.map (fun p => p.2.description)).flatten)
          entries.length
          ((asnRecBytes entries ⟨pre.flatten, cache⟩).1 ++ tail) acc =
        Except.ok (entries.foldl (fun m p => mapInsert m p.1 p.2) acc, tail) := by
  intro entries
  induction entries with
  | nil =>
      intro pre cache tail acc _ _ _
      simp [asnRecBytes, rdAsnRecs]
  | cons pe rest ih =>
      intro pre cache tail acc hvalid hPlen hwfe
      match pe with
      | (k, e) =>
      obtain ⟨hasn, hk32, hc2⟩ := hwfe (k, e) (List.mem_cons_self _ _)
      -- the fixed full pool
      set P := (pre ++ ((k, e) :: rest).map
        (fun p => p.2.description)).flatten with hP
      have hPsplit : P = pre.flatten ++
          (e.description ++ (rest.map (fun p => p.2.description)).flatten) := by
        rw [hP, List.flatten_append, List.map_cons, List.flatten_cons]
      have hofflen : pre.flatten.length + e.description.length ≤ P.length := by
        rw [hPsplit]
        simp [List.length_append]
      have hoff32 : pre.flatten.length < 2 ^ 32 := by omega
      have hlen32 : e.description.length < 2 ^ 32 := by omega
      -- the written record bytes
      rw [asnRecBytes_bytes]
      simp only [StringPool.pack]
      rw [Nat.mod_eq_of_lt hoff32, Nat.mod_eq_of_lt hlen32]
      -- reassociate the byte stream
      have hassoc :
          (beBytes 4 k ++ e.country ++
            (leBytes 4 pre.flatten.length ++ leBytes 4 e.description.length) ++
            (asnRecBytes rest
              ⟨pre.flatten ++ e.description,
                cacheInsert cache e.description
                  (pre.flatten.length, e.description.length)⟩).1) ++ tail =
          beBytes 4 k ++ (e.country ++
            ((leBytes 4 pre.flatten.length ++ leBytes 4 e.description.length) ++
              ((asnRecBytes rest
                ⟨pre.flatten ++ e.description,
                  cacheInsert cache e.description
                    (pre.flatten.length, e.description.length)⟩).1 ++ tail))) := by
        simp [List.append_assoc]
      rw [hassoc]
      set recs' := (asnRecBytes rest
        ⟨pre.flatten ++ e.description,
          cacheInsert cache e.description
            (pre.flatten.length, e.description.length)⟩).1 with hrecs'
      set bs := beBytes 4 k ++ (e.country ++
        ((leBytes 4 pre.flatten.length ++ leBytes 4 e.description.length) ++
          (recs' ++ tail))) with hbs
      have hbslen : bs.length =
          14 + (recs' ++ tail).length := by
        rw [hbs]
        simp only [List.length_append, beBytes_length, leBytes_length, hc2]
        omega
      rw [List.length_cons]
      simp only [rdAsnRecs]
      rw [if_neg (by omega)]
      -- field extraction
      have htake4 : bs.take 4 = beBytes 4 k := take_append_len (beBytes_length 4 k)
      have hdrop4 : bs.drop 4 = e.country ++
          ((leBytes 4 pre.flatten.length ++ leBytes 4 e.description.length) ++
            (recs' ++ tail)) := drop_append_len (beBytes_length 4 k)
      have htake2 : (bs.drop 4).take 2 = e.country := by
        rw [hdrop4]
        exact take_append_len hc2
      have hdrop6 : bs.drop 6 =
          (leBytes 4 pre.flatten.length ++ leBytes 4 e.description.length) ++
            (recs' ++ tail) := by
        have h1 := congrArg (List.drop 2) hdrop4
        rw [List.drop_drop] at h1
        rw [show (6 : Nat) = 2 + 4 by rfl, h1]
        exact drop_append_len hc2
      have htok : (bs.drop 6).take 8 =
          leBytes 4 pre.flatten.length ++ leBytes 4 e.description.length := by
        rw [hdrop6]
        exact take_append_len (by simp [leBytes_length])
      have hdrop14 : bs.drop 14 = recs' ++ tail := by
        have h1 := congrArg (List.drop 8) hdrop6
        rw [List.drop_drop] at h1
        rw [show (14 : Nat) = 8 + 6 by rfl, h1]
        exact drop_append_len (by simp [leBytes_length])
      rw [htok, htake4, htake2, hdrop14]
      -- decode the token
      have h2to32 : (2 : Nat) ^ 32 = 256 ^ 4 := by norm_num
      have hrdoff : rdLe ((leBytes 4 pre.flatten.length ++
          leBytes 4 e.description.length).take 4) = pre.flatten.length := by
        rw [take_append_len (leBytes_length 4 _)]
        exact rdLe_leBytes_of_lt (h2to32 ▸ hoff32)
      have hrdlen : rdLe (((leBytes 4 pre.flatten.length ++
          leBytes 4 e.description.length).drop 4).take 4) =
          e.description.length := by
        rw [drop_append_len (leBytes_length 4 _), List.take_of_length_le
          (by rw [leBytes_length])]
        exact rdLe_leBytes_of_lt (h2to32 ▸ hlen32)
      -- evaluate unpack
      have hds : pre ++ ((k, e) :: rest).map (fun p => p.2.description) =
          pre ++ (e.description :: rest.map (fun p => p.2.description)) := by
        rw [List.map_cons]
      have hvalid' : ∀ d ∈ pre ++ ((k, e) :: rest).map
          (fun p => p.2.description), validUTF8 d = true := hvalid
      have hbound1 : isCharBoundary P pre.flatten.length = true := by
        apply isCharBoundary_of_strongBound
        have h1 : pre.flatten.length = sumLen ((pre ++ ((k, e) :: rest).map
            (fun p => p.2.description)).take pre.length) := by
          rw [take_append_len rfl, length_flatten_eq_sumLen]
        rw [hP, h1]
        exact strongBound_flatten_take hvalid' pre.length
      have hbound2 : isCharBoundary P
          (pre.flatten.length + e.description.length) = true := by
        apply isCharBoundary_of_strongBound
        have htk : (pre ++ ((k, e) :: rest).map
            (fun p => p.2.description)).take (pre.length + 1) =
            pre ++ [e.description] := by
          rw [hds]
          exact take_append_cons pre e.description _
        have h1 : pre.flatten.length + e.description.length = sumLen ((pre ++
            ((k, e) :: rest).map (fun p => p.2.description)).take
              (pre.length + 1)) := by
          rw [htk, ← length_flatten_eq_sumLen, List.flatten_append]
          simp
        rw [hP, h1]
        exact strongBound_flatten_take hvalid' (pre.length + 1)
      have hslice : (P.drop pre.flatten.length).take e.description.length =
          e.description := by
        have h1 : pre.flatten.length = sumLen ((pre ++ ((k, e) :: rest).map
            (fun p => p.2.description)).take pre.length) := by
          rw [take_append_len rfl, length_flatten_eq_sumLen]
        rw [hP, h1]
        apply slice_flatten
        rw [hds, drop_append_len rfl, drop_append_cons]
      have hunpack : StringPool.unpack (StringPool.load P)
          (leBytes 4 pre.flatten.length ++ leBytes 4 e.description.length) =
          some e.description := by
        unfold StringPool.unpack StringPool.load
        rw [hrdoff, hrdlen]
        rw [if_neg (by simp only []; omega)]
        simp only [hbound1, hbound2, Bool.and_self, if_pos]
        rw [hslice]
      rw [rdBe_beBytes_of_lt (h2to32 ▸ hk32), hunpack]
      -- the re-read entry is the original
      have hasn' : e.asn = k := hasn
      have hentry : (⟨k, e.country, e.description⟩ : ASNEntry) = e := by
        rw [← hasn']
      show rdAsnRecs P rest.length (recs' ++ tail)
          (mapInsert acc k ⟨k, e.country, e.description⟩) =
        Except.ok
          (((k, e) :: rest).foldl (fun m p => mapInsert m p.1 p.2) acc, tail)
      -- recurse
      have hps := descs_reassoc pre k e rest
      have hflat : pre.flatten ++ e.description =
          (pre ++ [e.description]).flatten := by
        simp
      rw [hentry]
      have := ih (pre ++ [e.description])
        (cacheInsert cache e.description
          (pre.flatten.length, e.description.length)) tail
        (mapInsert acc k e)
        (by rw [hps]; exact hvalid)
        (by rw [hps]; exact hPlen)
        (fun p hp => hwfe p (List.mem_cons_of_mem _ hp))
      rw [hps, ← hflat] at this
      rw [hrecs', hP]
      rw [this, List.foldl_cons]

/-- The saved byte stream, fully right-associated, with a fixed header
length of 1024 bytes. -/
theorem save_form (db : IPDatabase) :
    IPDatabase.save db = SIGNATURE ++ (beBytes 2 2 ++
      (beBytes 4 ((1024 + (saveBody db).length) % 2 ^ 32) ++
      (beBytes 4
        ((asnRecBytes db.asn_map StringPool.new).2.pool.length % 2 ^ 32) ++
      (beBytes 4 0 ++
      (beBytes 4 (db.asn_map.length % 2 ^ 32) ++
      (beBytes 4 (db.ipv4.length % 2 ^ 32) ++
      (beBytes 4 (db.ipv6.length % 2 ^ 32) ++
      (List.replicate 982 0 ++ (saveBody db ++
        (asnRecBytes db.asn_map StringPool.new).2.pool))))))))) := by
  unfold IPDatabase.save
  simp only [List.append_assoc]

theorem save_length (db : IPDatabase) :
    (IPDatabase.save db).length = 1024 + (saveBody db).length +
      (asnRecBytes db.asn_map StringPool.new).2.pool.length := by
  rw [save_form]
  simp only [List.length_append, beBytes_length, List.length_replicate]
  have hsig : SIGNATURE.length = 16 := by decide
  omega

set_option maxHeartbeats 2000000 in
/-- `load` inverts `save` on any well-formed database whose snapshot
fits the 32-bit offsets of the format. -/
theorem load_save {db : IPDatabase} (hwf : dbWF db)
    (hsz : (IPDatabase.save db).length < 2 ^ 32) :
    IPDatabase.load (IPDatabase.save db) = Except.ok db := by
  obtain ⟨h4s, h6s, h4b, h6b, hnd, hent⟩ := hwf
  have hpool : (asnRecBytes db.asn_map StringPool.new).2.pool =
      (db.asn_map.map fun p => p.2.description).flatten := by
    rw [asnRecBytes_pool]
    rfl
  have hrl : (asnRecBytes db.asn_map StringPool.new).1.length =
      14 * db.asn_map.length :=
    asnRecBytes_length db.asn_map StringPool.new
      fun p hp => (hent p hp).2.2.1
  have h4l : (rangeBytes 4 db.ipv4).length = 12 * db.ipv4.length := by
    rw [rangeBytes_length]
  have h6l : (rangeBytes 16 db.ipv6).length = 36 * db.ipv6.length := by
    rw [rangeBytes_length]
  have hbl : (saveBody db).length =
      (asnRecBytes db.asn_map StringPool.new).1.length +
        (rangeBytes 4 db.ipv4).length + (rangeBytes 16 db.ipv6).length := by
    unfold saveBody
    simp only [List.length_append]
  have htot := save_length db
  have hbody32 : 1024 + (saveBody db).length < 2 ^ 32 := by omega
  have hpool32 :
      (asnRecBytes db.asn_map StringPool.new).2.pool.length < 2 ^ 32 := by
    omega
  have hcA32 : db.asn_map.length < 2 ^ 32 := by omega
  have hc432 : db.ipv4.length < 2 ^ 32 := by omega
  have hc632 : db.ipv6.length < 2 ^ 32 := by omega
  have hform := save_form db
  rw [Nat.mod_eq_of_lt hbody32, Nat.mod_eq_of_lt hpool32,
    Nat.mod_eq_of_lt hcA32, Nat.mod_eq_of_lt hc432,
    Nat.mod_eq_of_lt hc632] at hform
  -- header fields
  have hsig16 : SIGNATURE.length = 16 := by decide
  have ht16 : (IPDatabase.save db).take 16 = SIGNATURE := by
    rw [hform]
    exact take_append_len hsig16
  have hd16 : (IPDatabase.save db).drop 16 = beBytes 2 2 ++
      (beBytes 4 (1024 + (saveBody db).length) ++
      (beBytes 4 (asnRecBytes db.asn_map StringPool.new).2.pool.length ++
      (beBytes 4 0 ++
      (beBytes 4 db.asn_map.length ++
      (beBytes 4 db.ipv4.length ++
      (beBytes 4 db.ipv6.length ++
      (List.replicate 982 0 ++ (saveBody db ++
        (asnRecBytes db.asn_map StringPool.new).2.pool)))))))) := by
    rw [hform]
    exact drop_append_len hsig16
  have hver : ((IPDatabase.save db).drop 16).take 2 = beBytes 2 2 := by
    rw [hd16]
    exact take_append_len (beBytes_length 2 2)
  have hd18 : (IPDatabase.save db).drop 18 =
      beBytes 4 (1024 + (saveBody db).length) ++
      (beBytes 4 (asnRecBytes db.asn_map StringPool.new).2.pool.length ++
      (beBytes 4 0 ++
      (beBytes 4 db.asn_map.length ++
      (beBytes 4 db.ipv4.length ++
      (beBytes 4 db.ipv6.length ++
      (List.replicate 982 0 ++ (saveBody db ++
        (asnRecBytes db.asn_map StringPool.new).2.pool))))))) := by
    have h1 := congrArg (List.drop 2) hd16
    rw [List.drop_drop] at h1
    rw [show (18 : Nat) = 2 + 16 by rfl, h1]
    exact drop_append_len (beBytes_length 2 2)
  have hstrpl : ((IPDatabase.save db).drop 18).take 4 =
      beBytes 4 (1024 + (saveBody db).length) := by
    rw [hd18]
    exact take_append_len (beBytes_length 4 _)
  have hd22 : (IPDatabase.save db).drop 22 =
      beBytes 4 (asnRecBytes db.asn_map StringPool.new).2.pool.length ++
      (beBytes 4 0 ++
      (beBytes 4 db.asn_map.length ++
      (beBytes 4 db.ipv4.length ++
      (beBytes 4 db.ipv6.length ++
      (List.replicate 982 0 ++ (saveBody db ++
        (asnRecBytes db.asn_map StringPool.new).2.pool)))))) := by
    have h1 := congrArg (List.drop 4) hd18
    rw [List.drop_drop] at h1
    rw [show (22 : Nat) = 4 + 18 by rfl, h1]
    exact drop_append_len (beBytes_length 4 _)
  have hd26 : (IPDatabase.save db).drop 26 =
      beBytes 4 0 ++
      (beBytes 4 db.asn_map.length ++
      (beBytes 4 db.ipv4.length ++
      (beBytes 4 db.ipv6.length ++
      (List.replicate 982 0 ++ (saveBody db ++
        (asnRecBytes db.asn_map StringPool.new).2.pool))))) := by
    have h1 := congrArg (List.drop 4) hd22
    rw [List.drop_drop] at h1
    rw [show (26 : Nat) = 4 + 22 by rfl, h1]
    exact drop_append_len (beBytes_length 4 _)
  have hd30 : (IPDatabase.save db).drop 30 =
      beBytes 4 db.asn_map.length ++
      (beBytes 4 db.ipv4.length ++
      (beBytes 4 db.ipv6.length ++
      (List.replicate 982 0 ++ (saveBody db ++
        (asnRecBytes db.asn_map StringPool.new).2.pool)))) := by
    have h1 := congrArg (List.drop 4) hd26
    rw [List.drop_drop] at h1
    rw [show (30 : Nat) = 4 + 26 by rfl, h1]
    exact drop_append_len (beBytes_length 4 _)
  have hcntA : ((IPDatabase.save db).drop 30).take 4 =
      beBytes 4 db.asn_map.length := by
    rw [hd30]
    exact take_append_len (beBytes_length 4 _)
  have hd34 : (IPDatabase.save db).drop 34 =
      beBytes 4 db.ipv4.length ++
      (beBytes 4 db.ipv6.length ++
      (List.replicate 982 0 ++ (saveBody db ++
        (asnRecBytes db.asn_map StringPool.new).2.pool))) := by
    have h1 := congrArg (List.drop 4) hd30
    rw [List.drop_drop] at h1
    rw [show (34 : Nat) = 4 + 30 by rfl, h1]
    exact drop_append_len (beBytes_length 4 _)
  have hcnt4 : ((IPDatabase.save db).drop 34).take 4 =
      beBytes 4 db.ipv4.length := by
    rw [hd34]
    exact take_append_len (beBytes_length 4 _)
  have hd38 : (IPDatabase.save db).drop 38 =
      beBytes 4 db.ipv6.length ++
      (List.replicate 982 0 ++ (saveBody db ++
        (asnRecBytes db.asn_map StringPool.new).2.pool)) := by
    have h1 := congrArg (List.drop 4) hd34
    rw [List.drop_drop] at h1
    rw [show (38 : Nat) = 4 + 34 by rfl, h1]
    exact drop_append_len (beBytes_length 4 _)
  have hcnt6 : ((IPDatabase.save db).drop 38).take 4 =
      beBytes 4 db.ipv6.length := by
    rw [hd38]
    exact take_append_len (beBytes_length 4 _)
  have hd42 : (IPDatabase.save db).drop 42 =
      List.replicate 982 0 ++ (saveBody db ++
        (asnRecBytes db.asn_map StringPool.new).2.pool) := by
    have h1 := congrArg (List.drop 4) hd38
    rw [List.drop_drop] at h1
    rw [show (42 : Nat) = 4 + 38 by rfl, h1]
    exact drop_append_len (beBytes_length 4 _)
  have hd1024 : (IPDatabase.save db).drop 1024 =
      saveBody db ++ (asnRecBytes db.asn_map StringPool.new).2.pool := by
    have h1 := congrArg (List.drop 982) hd42
    rw [List.drop_drop] at h1
    rw [show (1024 : Nat) = 982 + 42 by rfl, h1]
    exact drop_append_len (List.length_replicate 982 0)
  have hdpool : (IPDatabase.save db).drop (1024 + (saveBody db).length) =
      (asnRecBytes db.asn_map StringPool.new).2.pool := by
    calc (IPDatabase.save db).drop (1024 + (saveBody db).length)
        = ((IPDatabase.save db).drop 1024).drop (saveBody db).length := by
          rw [List.drop_drop, Nat.add_comm]
      _ = (saveBody db ++
            (asnRecBytes db.asn_map StringPool.new).2.pool).drop
              (saveBody db).length := by rw [hd1024]
      _ = (asnRecBytes db.asn_map StringPool.new).2.pool :=
          drop_len_append _ _
  -- validity of the pool
  have hdescs : ∀ d ∈ db.asn_map.map (fun p => p.2.description),
      validUTF8 d = true := by
    intro d hd
    rw [List.mem_map] at hd
    obtain ⟨p, hp, hpd⟩ := hd
    exact hpd ▸ (hent p hp).2.2.2
  have hpoolvalid :
      validUTF8 (asnRecBytes db.asn_map StringPool.new).2.pool = true := by
    rw [hpool]
    exact validUTF8_join hdescs
  -- the three section parses
  have hbody_assoc : (IPDatabase.save db).drop 1024 =
      (asnRecBytes db.asn_map StringPool.new).1 ++
        (rangeBytes 4 db.ipv4 ++ (rangeBytes 16 db.ipv6 ++
          (asnRecBytes db.asn_map StringPool.new).2.pool)) := by
    rw [hd1024]
    unfold saveBody
    simp [List.append_assoc]
  have hrecsparse := rdAsnRecs_of_saved db.asn_map [] [] -- pre, cache
    (rangeBytes 4 db.ipv4 ++ (rangeBytes 16 db.ipv6 ++
      (asnRecBytes db.asn_map StringPool.new).2.pool)) []
    (by
      intro d hd
      rw [List.nil_append] at hd
      exact hdescs d hd)
    (by
      rw [List.nil_append, ← hpool]
      exact hpool32)
    (fun p hp =>
      ⟨(hent p hp).1, (hent p hp).2.1, (hent p hp).2.2.1⟩)
  rw [List.nil_append] at hrecsparse
  rw [foldl_mapInsert_fresh db.asn_map [] hnd (fun p _ => rfl),
    List.nil_append] at hrecsparse
  have hr4 := rdRanges_of_saved 4 db.ipv4
    (rangeBytes 16 db.ipv6 ++ (asnRecBytes db.asn_map StringPool.new).2.pool)
    []
    (fun x hx => by
      have := h4b x hx
      constructor
      · calc x.starts < 2 ^ 32 := this.1
          _ = 256 ^ 4 := by norm_num
      constructor
      · calc x.ends < 2 ^ 32 := this.2.1
          _ = 256 ^ 4 := by norm_num
      · exact this.2.2)
  rw [foldl_rsInsert_sorted db.ipv4 [] (by rw [List.nil_append]; exact h4s),
    List.nil_append] at hr4
  have hr6 := rdRanges_of_saved 16 db.ipv6
    (asnRecBytes db.asn_map StringPool.new).2.pool
    []
    (fun x hx => by
      have := h6b x hx
      constructor
      · calc x.starts < 2 ^ 128 := this.1
          _ = 256 ^ 16 := by norm_num
      constructor
      · calc x.ends < 2 ^ 128 := this.2.1
          _ = 256 ^ 16 := by norm_num
      · exact this.2.2)
  rw [foldl_rsInsert_sorted db.ipv6 [] (by rw [List.nil_append]; exact h6s),
    List.nil_append] at hr6
  -- assemble
  unfold IPDatabase.load
  rw [if_neg (by omega)]
  rw [if_neg (not_not_intro ht16)]
  rw [hver, rdBe_beBytes_of_lt (by norm_num)]
  rw [if_neg (by omega)]
  rw [hstrpl, rdBe_beBytes_of_lt (by
    calc 1024 + (saveBody db).length < 2 ^ 32 := hbody32
      _ = 256 ^ 4 := by norm_num)]
  rw [hdpool]
  rw [if_neg (not_not_intro hpoolvalid)]
  rw [hcntA, rdBe_beBytes_of_lt (by
    calc db.asn_map.length < 2 ^ 32 := hcA32
      _ = 256 ^ 4 := by norm_num)]
  rw [← hpool] at hrecsparse
  rw [show (List.flatten ([] : List (List Nat))) = [] from rfl] at hrecsparse
  rw [show (⟨[], []⟩ : StringPool) = StringPool.new from rfl] at hrecsparse
  rw [hbody_assoc, hrecsparse]
  show (match rdRanges 4 (rdBe (((IPDatabase.save db).drop 34).take 4))
      (rangeBytes 4 db.ipv4 ++ (rangeBytes 16 db.ipv6 ++
        (asnRecBytes db.asn_map StringPool.new).2.pool)) [] with
    | Except.error e => Except.error e
    | Except.ok (v4, rest3) =>
        match rdRanges 16 (rdBe (((IPDatabase.save db).drop 38).take 4))
            rest3 [] with
        | Except.error e => Except.error e
        | Except.ok (v6, _) => Except.ok ⟨v4, v6, db.asn_map⟩) =
    Except.ok db
  rw [hcnt4, rdBe_beBytes_of_lt (by
    calc db.ipv4.length < 2 ^ 32 := hc432
      _ = 256 ^ 4 := by norm_num)]
  rw [hr4]
  show (match rdRanges 16 (rdBe (((IPDatabase.save db).drop 38).take 4))
      (rangeBytes 16 db.ipv6 ++
        (asnRecBytes db.asn_map StringPool.new).2.pool) [] with
    | Except.error e => Except.error e
    | Except.ok (v6, _) => Except.ok ⟨db.ipv4, v6, db.asn_map⟩) =
    Except.ok db
  rw [hcnt6, rdBe_beBytes_of_lt (by
    calc db.ipv6.length < 2 ^ 32 := hc632
      _ = 256 ^ 4 := by norm_num)]
  rw [hr6]

/-! ## Referential-integrity preservation -/

theorem mapGet_mapInsert_isSome {m : List (Nat × ASNEntry)} {k' : Nat}
    (k : Nat) (v : ASNEntry) (h : (mapGet m k').isSome = true) :
    (mapGet (mapInsert m k v) k').isSome = true := by
  by_cases hk : k' = k
  · subst hk
    rw [mapGet_mapInsert_self]
    rfl
  · rw [mapGet_mapInsert_other v hk]
    exact h

theorem processLine_integrity {db : IPDatabase} (line : List Nat)
    (h : refIntegrity db) : refIntegrity (processLine db line) := by
  obtain ⟨h4, h6⟩ := h
  unfold processLine
  split
  case h_2 => exact ⟨h4, h6⟩
  rename_i f1 f2 f3 rest heq
  split
  case h_2 => exact ⟨h4, h6⟩
  rename_i s e a hs he ha
  split
  case h_2 => exact ⟨h4, h6⟩
  rename_i cc rest2
  split
  case h_2 => exact ⟨h4, h6⟩
  rename_i desc rest3
  split
  case h_1 sv ev =>
      constructor
      · intro x hx
        rcases mem_rsInsert hx with h' | h'
        · exact mapGet_mapInsert_isSome _ _ (h4 x h')
        · subst h'
          rw [mapGet_mapInsert_self]
          rfl
      · intro x hx
        exact mapGet_mapInsert_isSome _ _ (h6 x hx)
  case h_2 sv ev =>
      constructor
      · intro x hx
        exact mapGet_mapInsert_isSome _ _ (h4 x hx)
      · intro x hx
        rcases mem_rsInsert hx with h' | h'
        · exact mapGet_mapInsert_isSome _ _ (h6 x h')
        · subst h'
          rw [mapGet_mapInsert_self]
          rfl
  case h_3 =>
      constructor
      · intro x hx
        exact mapGet_mapInsert_isSome _ _ (h4 x hx)
      · intro x hx
        exact mapGet_mapInsert_isSome _ _ (h6 x hx)

theorem load_from_tsv_integrity {db db' : IPDatabase} {input : List Nat}
    (hint : refIntegrity db)
    (h : IPDatabase.load_from_tsv db input = Except.ok db') :
    refIntegrity db' := by
  unfold IPDatabase.load_from_tsv at h
  split_ifs at h with hv
  · cases h
    have : ∀ (lines : List (List Nat)) (d : IPDatabase), refIntegrity d →
        refIntegrity (lines.foldl processLine d) := by
      intro lines
      induction lines with
      | nil => intro d hd; exact hd
      | cons p ps ih =>
          intro d hd
          rw [List.foldl_cons]
          exact ih (processLine d p) (processLine_integrity p hd)
    exact this (splitByte 10 input) db hint

/-! ## Claims

One theorem per claim of the specification review, with concrete
witnesses and counterexamples. -/

/-- C1: Round-trip — for every database populated by TSV ingest (whose
snapshot fits the format's 32-bit offsets), loading the snapshot
produced by `save` yields a database giving the same `query` result as
the original on every input string. -/
theorem c1_roundtrip (input : List Nat) (db : IPDatabase)
    (hok : IPDatabase.load_from_tsv IPDatabase.new input = Except.ok db)
    (hsz : (IPDatabase.save db).length < 2 ^ 32) :
    ∃ db', IPDatabase.load (IPDatabase.save db) = Except.ok db' ∧
      ∀ x : List Nat, IPDatabase.query db' x = IPDatabase.query db x :=
  ⟨db, load_save (load_from_tsv_wf dbWF_new hok) hsz, fun _ => rfl⟩

/-- The TSV line `1.0.0.0\t1.0.0.255\t13335\tUS\tCLOUDFLARENET`. -/
def c1Input : List Nat :=
  [49, 46, 48, 46, 48, 46, 48, 9, 49, 46, 48, 46, 48, 46, 50, 53, 53, 9,
   49, 51, 51, 51, 53, 9, 85, 83, 9,
   67, 76, 79, 85, 68, 70, 76, 65, 82, 69, 78, 69, 84]

/-- The database `c1Input` ingests to. -/
def c1Db : IPDatabase :=
  ⟨[⟨13335, 16777216, 16777471⟩], [],
   [(13335, ⟨13335, [85, 83],
     [67, 76, 79, 85, 68, 70, 76, 65, 82, 69, 78, 69, 84]⟩)]⟩

set_option maxRecDepth 100000 in
/-- Witness for C1 at a concrete one-row ingest. -/
theorem c1_roundtrip_witness :
    IPDatabase.load_from_tsv IPDatabase.new c1Input = Except.ok c1Db ∧
    (IPDatabase.save c1Db).length < 2 ^ 32 ∧
    ∃ db', IPDatabase.load (IPDatabase.save c1Db) = Except.ok db' ∧
      ∀ x : List Nat, IPDatabase.query db' x = IPDatabase.query c1Db x :=
  ⟨by rfl, by decide, c1_roundtrip c1Input c1Db (by rfl) (by decide)⟩

/-- Two TSV rows whose ASNs share the description `DESC`. -/
def c2Input : List Nat :=
  [50, 46, 48, 46, 48, 46, 48, 9, 50, 46, 48, 46, 48, 46, 49, 48, 9,
   49, 48, 48, 9, 85, 83, 9, 68, 69, 83, 67, 10,
   50, 46, 48, 46, 48, 46, 50, 48, 9, 50, 46, 48, 46, 48, 46, 51, 48, 9,
   50, 48, 48, 9, 85, 83, 9, 68, 69, 83, 67]

/-- The database `c2Input` ingests to. -/
def c2Db : IPDatabase :=
  ⟨[⟨100, 33554432, 33554442⟩, ⟨200, 33554452, 33554462⟩], [],
   [(100, ⟨100, [85, 83], [68, 69, 83, 67]⟩),
    (200, ⟨200, [85, 83], [68, 69, 83, 67]⟩)]⟩

set_option maxRecDepth 100000 in
/-- C2 (refuting the claim as stated): after `"a"` is interned with
recorded token `(0, 1)`, a second `pack("a")` does not return the
recorded token and does not leave the pool unchanged — it returns
`(1, 1)` and the pool buffer becomes `"aa"` (the cache hit is computed
and then discarded). Consequently the string-pool area of the snapshot
of a two-ASN database sharing the description `DESC` contains those
bytes twice, not once. -/
theorem c2_pack_dedup_bug :
    cacheGet (StringPool.pack StringPool.new [97]).1.cache [97] =
      some (0, 1) ∧
    (StringPool.pack (StringPool.pack StringPool.new [97]).1 [97]).2 =
      leBytes 4 1 ++ leBytes 4 1 ∧
    (StringPool.pack (StringPool.pack StringPool.new [97]).1 [97]).1.pool =
      [97, 97] ∧
    IPDatabase.load_from_tsv IPDatabase.new c2Input = Except.ok c2Db ∧
    (asnRecBytes c2Db.asn_map StringPool.new).2.pool =
      [68, 69, 83, 67, 68, 69, 83, 67] :=
  ⟨by decide, by decide, by decide, by rfl, by rfl⟩

/-- C3: `find` returns the entry with the greatest `starts ≤ needle`,
and only when its `ends` covers the needle; if no entry starts at or
below the needle, or the located entry ends before it, `find` returns
none. Hence, over a non-overlapping well-formed v4 index holding
`(s, e, a)`, `query` returns `a`'s record on every key in `[s, e]` and
none on the uncovered neighbors `s - 1` and `e + 1`. -/
theorem c3_find_correct (l : List IPRangeEntry) (needle : Nat)
    (hs : rsSorted l) :
    (∀ o, IPRangeSet.find l needle = some o →
        o ∈ l ∧ o.starts ≤ needle ∧ needle ≤ o.ends ∧
          ∀ x ∈ l, x.starts ≤ needle → x.starts ≤ o.starts) ∧
    (∀ o, o ∈ l → o.starts ≤ needle →
        (∀ x ∈ l, x.starts ≤ needle → x.starts ≤ o.starts) →
        IPRangeSet.find l needle =
          if needle ≤ o.ends then some o else none) ∧
    ((∀ x ∈ l, needle < x.starts) → IPRangeSet.find l needle = none) ∧
    (∀ (db : IPDatabase) (xs : List Nat) (s e a v : Nat) (rec : ASNEntry),
        db.ipv4 = l →
        (∀ y ∈ l, y.starts ≤ y.ends) →
        l.Pairwise (fun p q => p.ends < q.starts ∨ q.ends < p.starts) →
        (⟨a, s, e⟩ : IPRangeEntry) ∈ l →
        parse_ip xs = some (IpAddr.V4 v) →
        mapGet db.asn_map a = some rec →
        ((s ≤ v → v ≤ e → IPDatabase.query db xs = some rec) ∧
         (v = s - 1 → 0 < s → (¬ ∃ y ∈ l, y.starts ≤ v ∧ v ≤ y.ends) →
            IPDatabase.query db xs = none) ∧
         (v = e + 1 → (¬ ∃ y ∈ l, y.starts ≤ v ∧ v ≤ y.ends) →
            IPDatabase.query db xs = none))) := by
  refine ⟨?_, ?_, ?_, ?_⟩
  · intro o ho
    exact ⟨(find_some_covers ho).1, (find_some_covers ho).2.1,
      (find_some_covers ho).2.2, find_maximal hs ho⟩
  · intro o ho h1 hmax
    exact find_complete hs ho h1 hmax
  · exact find_none_of_all_gt
  · intro db xs s e a v rec hdb hwfr hdisj hmem hparse hrec
    have hqnone : (¬ ∃ y ∈ l, y.starts ≤ v ∧ v ≤ y.ends) →
        IPDatabase.query db xs = none := by
      intro hnc
      unfold IPDatabase.query
      rw [hparse, hdb]
      show (match IPRangeSet.find l v with
            | some o => mapGet db.asn_map o.asn
            | none => none) = none
      rw [find_none_of_not_covered hnc]
    refine ⟨?_, fun _ _ h => hqnone h, fun _ h => hqnone h⟩
    intro hsv hve
    have hmax : ∀ x ∈ l, x.starts ≤ v →
        x.starts ≤ (⟨a, s, e⟩ : IPRangeEntry).starts := by
      intro x hx hxv
      by_cases hxe : x = (⟨a, s, e⟩ : IPRangeEntry)
      · rw [hxe]
      · have hsymm : Symmetric
            (fun p q : IPRangeEntry => p.ends < q.starts ∨ q.ends < p.starts) :=
          fun p q h => Or.symm h
        have hrel : (⟨a, s, e⟩ : IPRangeEntry).ends < x.starts ∨
            x.ends < (⟨a, s, e⟩ : IPRangeEntry).starts :=
          hdisj.forall hsymm hmem hx (fun h => hxe h.symm)
        rcases hrel with hc | hc
        · have hc' : e < x.starts := hc
          omega
        · have hc' : x.ends < s := hc
          have hwx := hwfr x hx
          show x.starts ≤ s
          omega
    have hfind : IPRangeSet.find l v = some ⟨a, s, e⟩ := by
      have := find_complete hs hmem
        (show (⟨a, s, e⟩ : IPRangeEntry).starts ≤ v from hsv) hmax
      rw [if_pos (show v ≤ (⟨a, s, e⟩ : IPRangeEntry).ends from hve)] at this
      exact this
    unfold IPDatabase.query
    rw [hparse, hdb]
    show (match IPRangeSet.find l v with
          | some o => mapGet db.asn_map o.asn
          | none => none) = some rec
    rw [hfind]
    exact hrec

/-- A one-range v4 index: `(10, 20, asn 7)`. -/
def c3L : List IPRangeEntry := [⟨7, 10, 20⟩]

/-- A database holding `c3L` and ASN 7's record. -/
def c3Db : IPDatabase := ⟨[⟨7, 10, 20⟩], [], [(7, ⟨7, [85, 83], [65]⟩)]⟩

/-- The string `0.0.0.15`, parsing to the v4 key 15. -/
def c3X : List Nat := [48, 46, 48, 46, 48, 46, 49, 53]

/-- Witness for C3: the covered key 15 of `[10, 20]` resolves to ASN 7's
record. -/
theorem c3_find_correct_witness :
    rsSorted c3L ∧ IPDatabase.query c3Db c3X = some ⟨7, [85, 83], [65]⟩ :=
  ⟨by unfold rsSorted; decide,
    ((c3_find_correct c3L 15 (by unfold rsSorted; decide)).2.2.2 c3Db c3X
      10 20 7 15 ⟨7, [85, 83], [65]⟩ rfl (by decide) (by decide)
      (by decide) (by rfl) (by rfl)).1 (by decide) (by decide)⟩

/-- C4 (the claim fails on the code): `load_from_tsv_file` opens its
path with `File::create`, truncating the file to zero bytes instead of
reading it — afterwards the file is empty and the database gains
nothing from the file's former contents. -/
theorem c4_load_from_tsv_file_truncates (db : IPDatabase)
    (contents : List Nat) :
    (IPDatabase.load_from_tsv_file db contents).1 = [] ∧
    (IPDatabase.load_from_tsv_file db contents).2 = Except.ok db :=
  ⟨rfl, rfl⟩

/-- The mixed-family TSV line `1.2.3.4\t::1\t5\tUS\tfoo`. -/
def c5Input : List Nat :=
  [49, 46, 50, 46, 51, 46, 52, 9, 58, 58, 49, 9, 53, 9, 85, 83, 9,
   102, 111, 111]

/-- The database the mixed-family line actually produces: the ASN table
gained record 5 although both range indexes stayed empty. -/
def c5Db : IPDatabase := ⟨[], [], [(5, ⟨5, [85, 83], [102, 111, 111]⟩)]⟩

/-- C5 counterexample: ingesting a mixed-family line does not leave the
ASN table as it was — record 5 is inserted. -/
theorem c5_counterexample :
    IPDatabase.load_from_tsv IPDatabase.new c5Input = Except.ok c5Db ∧
      c5Db.asn_map ≠ IPDatabase.new.asn_map :=
  ⟨by rfl, by decide⟩

/-- C5 as amended: a line whose endpoints parse to different IP
families leaves both range indexes unchanged, but the ASN record of the
line is inserted into the ASN table (the insertion precedes the
family check in the loop body). -/
theorem c5_mixed_family_inserts_asn (db : IPDatabase)
    (line f1 f2 f3 cc desc : List Nat) (a : Nat) (s e : IpAddr)
    (hsplit : (splitByte 9 line).take 5 = [f1, f2, f3, cc, desc])
    (h1 : parse_ip f1 = some s) (h2 : parse_ip f2 = some e)
    (h3 : parseU32 f3 = some a)
    (hmix : (∃ sv ev, s = IpAddr.V4 sv ∧ e = IpAddr.V6 ev) ∨
            (∃ sv ev, s = IpAddr.V6 sv ∧ e = IpAddr.V4 ev)) :
    processLine db line = { db with
      asn_map := mapInsert db.asn_map a
        ⟨a, if cc.length = 2 then cc else [0, 0], desc⟩ } := by
  rcases hmix with ⟨sv, ev, hse, hee⟩ | ⟨sv, ev, hse, hee⟩ <;>
    subst hse <;> subst hee <;>
    (unfold processLine; simp only [hsplit, h1, h2, h3])

/-- Witness for C5's amended statement at the concrete mixed line. -/
theorem c5_mixed_family_witness :
    processLine IPDatabase.new c5Input = c5Db := by
  have := c5_mixed_family_inserts_asn IPDatabase.new c5Input
    [49, 46, 50, 46, 51, 46, 52] [58, 58, 49] [53] [85, 83]
    [102, 111, 111] 5 (IpAddr.V4 16909060) (IpAddr.V6 1)
    (by rfl) (by rfl) (by rfl) (by rfl)
    (Or.inl ⟨16909060, 1, rfl, rfl⟩)
  exact this

/-- C6 counterexample: a crafted snapshot that `load` accepts whose one
v4 range references ASN 7 while the ASN table is empty. -/
def c6Bytes : List Nat :=
  SIGNATURE ++ beBytes 2 2 ++ beBytes 4 1036 ++ beBytes 4 0 ++
  beBytes 4 0 ++ beBytes 4 0 ++ beBytes 4 1 ++ beBytes 4 0 ++
  List.replicate 982 0 ++
  (beBytes 4 1 ++ beBytes 4 2 ++ beBytes 4 7)

/-- The database `c6Bytes` loads to: a dangling range, no ASN rows. -/
def c6Db : IPDatabase := ⟨[⟨7, 1, 2⟩], [], []⟩

set_option maxRecDepth 100000 in
/-- C6 counterexample: `load` can return `Ok` on input violating
referential integrity, so the claim fails for arbitrary successful
loads. -/
theorem c6_counterexample :
    IPDatabase.load c6Bytes = Except.ok c6Db ∧ ¬ refIntegrity c6Db :=
  ⟨by rfl,
    fun h => by simpa [mapGet] using h.1 ⟨7, 1, 2⟩ (List.mem_cons_self _ _)⟩

/-- C6 as amended: referential integrity is preserved by every
successful TSV ingest, and it survives a save/load round trip of a
well-formed database; it is not guaranteed for arbitrary inputs `load`
accepts. -/
theorem c6_referential_integrity :
    (∀ (db : IPDatabase) (input : List Nat) (db' : IPDatabase),
        refIntegrity db →
        IPDatabase.load_from_tsv db input = Except.ok db' →
        refIntegrity db') ∧
    (∀ db : IPDatabase, dbWF db → refIntegrity db →
        (IPDatabase.save db).length < 2 ^ 32 →
        ∃ db', IPDatabase.load (IPDatabase.save db) = Except.ok db' ∧
          refIntegrity db') :=
  ⟨fun _ _ _ hint h => load_from_tsv_integrity hint h,
   fun db hwf hint hsz => ⟨db, load_save hwf hsz, hint⟩⟩

/-- A small well-formed database with intact references. -/
def c6WDb : IPDatabase := ⟨[⟨3, 1, 2⟩], [], [(3, ⟨3, [85, 83], [66]⟩)]⟩

set_option maxRecDepth 100000 in
/-- Witness for C6's amended statement. -/
theorem c6_referential_integrity_witness :
    refIntegrity c6WDb ∧ dbWF c6WDb ∧
    (IPDatabase.save c6WDb).length < 2 ^ 32 ∧
    ∃ db', IPDatabase.load (IPDatabase.save c6WDb) = Except.ok db' ∧
      refIntegrity db' := by
  have h1 : refIntegrity c6WDb := by
    unfold refIntegrity
    decide
  have h2 : dbWF c6WDb := by
    unfold dbWF rsSorted
    decide
  have h3 : (IPDatabase.save c6WDb).length < 2 ^ 32 := by decide
  exact ⟨h1, h2, h3, c6_referential_integrity.2 c6WDb h2 h1 h3⟩

/-- C7: `query` is total — an unparseable input yields none, and a
found range whose ASN is absent from the table yields none rather than
failing. -/
theorem c7_query_never_raises (db : IPDatabase) (x : List Nat) :
    (parse_ip x = none → IPDatabase.query db x = none) ∧
    (∀ v e, parse_ip x = some (IpAddr.V4 v) →
      IPRangeSet.find db.ipv4 v = some e →
      mapGet db.asn_map e.asn = none → IPDatabase.query db x = none) ∧
    (∀ v e, parse_ip x = some (IpAddr.V6 v) →
      IPRangeSet.find db.ipv6 v = some e →
      mapGet db.asn_map e.asn = none → IPDatabase.query db x = none) := by
  refine ⟨?_, ?_, ?_⟩
  · intro h
    unfold IPDatabase.query
    rw [h]
  · intro v e hp hf hg
    unfold IPDatabase.query
    rw [hp]
    show (match IPRangeSet.find db.ipv4 v with
          | some o => mapGet db.asn_map o.asn
          | none => none) = none
    rw [hf]
    exact hg
  · intro v e hp hf hg
    unfold IPDatabase.query
    rw [hp]
    show (match IPRangeSet.find db.ipv6 v with
          | some o => mapGet db.asn_map o.asn
          | none => none) = none
    rw [hf]
    exact hg

/-- A database whose only v4 range references the absent ASN 9. -/
def c7Db : IPDatabase := ⟨[⟨9, 0, 10⟩], [], []⟩

/-- The string `0.0.0.5`. -/
def c7X : List Nat := [48, 46, 48, 46, 48, 46, 53]

/-- Witness for C7: the orphan-reference case returns none. -/
theorem c7_query_never_raises_witness : IPDatabase.query c7Db c7X = none :=
  (c7_query_never_raises c7Db c7X).2.1 5 ⟨9, 0, 10⟩ (by rfl) (by rfl)
    (by rfl)

/-- Sixteen zero bytes: the signature mismatches, but the input is
shorter than the 1024-byte header. -/
def c8Short : List Nat := List.replicate 16 0

/-- C8 counterexample: on an input shorter than the header whose first
16 bytes differ from the signature, `load` fails with an end-of-file
condition, not the invalid-data condition the claim states. -/
theorem c8_counterexample :
    IPDatabase.load c8Short = Except.error LoadErr.eof ∧
      LoadErr.eof ≠ LoadErr.invalidData :=
  ⟨by rfl, by decide⟩

/-- C8 as amended: on every input of at least 1024 bytes whose first 16
bytes differ from the signature or whose big-endian version field
differs from 2, `load` fails with invalid-data and yields no
database. -/
theorem c8_header_rejection (bytes : List Nat)
    (hlen : 1024 ≤ bytes.length)
    (h : bytes.take 16 ≠ SIGNATURE ∨ rdBe ((bytes.drop 16).take 2) ≠ 2) :
    IPDatabase.load bytes = Except.error LoadErr.invalidData := by
  unfold IPDatabase.load
  rw [if_neg (by omega)]
  rcases h with h | h
  · rw [if_pos h]
  · by_cases hsig : bytes.take 16 ≠ SIGNATURE
    · rw [if_pos hsig]
    · rw [if_neg hsig, if_pos h]

set_option maxRecDepth 100000 in
/-- Witness for C8's amended statement on 1024 zero bytes. -/
theorem c8_header_rejection_witness :
    1024 ≤ (List.replicate 1024 0 : List Nat).length ∧
    IPDatabase.load (List.replicate 1024 0) =
      Except.error LoadErr.invalidData :=
  ⟨by decide,
    c8_header_rejection (List.replicate 1024 0) (by decide)
      (Or.inl (by decide))⟩

/-- A two-byte pool holding the UTF-8 encoding of `é`. -/
def c9Pool : List Nat := [195, 169]

/-- C9 counterexample: the token `(0, 1)` is in bounds for the two-byte
pool, yet `unpack` panics (modelled as `none`) because byte offset 1 is
not a character boundary — refuting ``unpack never panics''. -/
theorem c9_counterexample :
    StringPool.unpack (StringPool.load c9Pool)
      (leBytes 4 0 ++ leBytes 4 1) = none := by rfl

/-- C9 as amended: for every pool and 8-byte token decoding to
little-endian `(offset, length)`, `unpack` returns the empty string
when `offset + length` exceeds the pool's byte length, and returns the
byte slice `[offset, offset + length)` when both slice ends lie on
UTF-8 character boundaries; at a non-boundary the in-bounds slice
panics. -/
theorem c9_unpack_bounds (pool data : List Nat) (_hdata : data.length = 8) :
    (pool.length < rdLe (data.take 4) + rdLe ((data.drop 4).take 4) →
      StringPool.unpack (StringPool.load pool) data = some []) ∧
    (rdLe (data.take 4) + rdLe ((data.drop 4).take 4) ≤ pool.length →
      isCharBoundary pool (rdLe (data.take 4)) = true →
      isCharBoundary pool
        (rdLe (data.take 4) + rdLe ((data.drop 4).take 4)) = true →
      StringPool.unpack (StringPool.load pool) data =
        some ((pool.drop (rdLe (data.take 4))).take
          (rdLe ((data.drop 4).take 4)))) := by
  constructor
  · intro h
    unfold StringPool.unpack StringPool.load
    rw [if_pos h]
  · intro h hb1 hb2
    unfold StringPool.unpack StringPool.load
    rw [if_neg (by simp only []; omega)]
    simp only [hb1, hb2, Bool.and_self, if_pos]

/-- Witness for C9's amended statement: slicing `ab` at `(0, 1)`. -/
theorem c9_unpack_bounds_witness :
    StringPool.unpack (StringPool.load [97, 98])
      (leBytes 4 0 ++ leBytes 4 1) = some [97] :=
  (c9_unpack_bounds [97, 98] (leBytes 4 0 ++ leBytes 4 1) (by decide)).2
    (by decide) (by decide) (by decide)

/-- C10: inserting a range whose `starts` is already present in a
(sorted) index leaves the index unchanged — the original entry's `ends`
and `asn` are retained, because entry ordering and equality are on
`starts` alone. -/
theorem c10_duplicate_start_insert (l : List IPRangeEntry)
    (e : IPRangeEntry) (ends2 asn2 : Nat) (hs : rsSorted l) (he : e ∈ l) :
    IPRangeSet.insert l e.starts ends2 asn2 = l := by
  unfold IPRangeSet.insert
  exact rsInsert_eq_self hs he rfl

/-- Witness for C10 at a one-entry index. -/
theorem c10_duplicate_start_insert_witness :
    rsSorted [(⟨1, 5, 10⟩ : IPRangeEntry)] ∧
    IPRangeSet.insert [⟨1, 5, 10⟩] 5 99 2 = [⟨1, 5, 10⟩] :=
  ⟨by unfold rsSorted; decide,
    c10_duplicate_start_insert [⟨1, 5, 10⟩] ⟨1, 5, 10⟩ 99 2
      (by unfold rsSorted; decide) (by decide)⟩

end Asndb
